import Mathlib

/-!
# RouteSync pathfinding engine: a shallow embedding

This file embeds the graph data model, the binary min-heap priority queue and
the three path-search algorithms (`dijkstra`, `aStar`, `bellmanFord`) of the
RouteSync repository in Lean 4, and proves or refutes the frozen claims about
them.

Modelling conventions:
* JavaScript numbers are modelled by `ℚ`, and values that may be `Infinity`
  (distances, scores, heap priorities) by `WithTop ℚ` with `⊤` for `Infinity`.
* A JavaScript `Map` is modelled by an association list in insertion order:
  `set` updates an existing key in place or appends a fresh one, `get` returns
  an `Option`, `forEach` folds in list order.  Real `Map`s never carry
  duplicate keys; the embedding is total on arbitrary association lists and
  agrees with `Map` semantics on the duplicate-free ones the program builds.
* Reads of a missing key (`undefined` in JavaScript) are modelled by `none`.
  In the source, arithmetic on such a read produces `NaN` and every `NaN`
  comparison is false, so a relaxation guarded by `distance < distances.get(x)`
  silently skips; the embedding matches on `some`/`some` and skips otherwise.
* Loops whose termination is structural in the source get exact bounds; the
  path-reconstruction `while` loop of the source can genuinely diverge
  (cyclic predecessor chains), so it is given fuel and returns `none` exactly
  when the source loop would run forever (pigeonhole: a walk of more than
  `previous.size + 1` steps that has not reached `null` must have repeated an
  id, and the walk is then periodic).
-/

namespace RouteSync

/-! ## JavaScript `Map` as an insertion-ordered association list -/

/-- `Map.get`: first binding of the key, if any. -/
def mget {α : Type} : List (String × α) → String → Option α
  | [], _ => none
  | (k', v) :: t, k => if k' = k then some v else mget t k

/-- `Map.set`: update the first binding in place, else append. -/
def mset {α : Type} : List (String × α) → String → α → List (String × α)
  | [], k, v => [(k, v)]
  | (k', v') :: t, k, v => if k' = k then (k', v) :: t else (k', v') :: mset t k v

/-- The keys of a map, in order (with multiplicity for ill-formed maps). -/
def mkeys {α : Type} (m : List (String × α)) : List String := m.map Prod.fst

/-! ## The priority queue (binary min-heap over a dense array)

The heap is a list of `(priority, value)` pairs; `heap[i]` is the list entry
at index `i`.  `bubbleUp`/`bubbleDown` take fuel strictly larger than the
number of iterations the source's `while` loops can make (the index strictly
decreases to its parent, resp. strictly increases below the length), so the
fuelled functions agree with the source. -/

/-- `this.heap[i].priority`; the default `⊤` is never reached under the
bounds checks the source performs before each access. -/
def prio (h : List (WithTop ℚ × String)) (i : ℕ) : WithTop ℚ :=
  ((h.get? i).map Prod.fst).getD ⊤

/-- The array double-assignment `[heap[a], heap[b]] = [heap[b], heap[a]]`. -/
def hswap (h : List (WithTop ℚ × String)) (a b : ℕ) : List (WithTop ℚ × String) :=
  match h.get? a, h.get? b with
  | some x, some y => (h.set a y).set b x
  | _, _ => h

/-- `bubbleUp(index)`: sift the entry at `index` towards the root while its
parent has strictly greater priority. -/
def bubbleUp : ℕ → List (WithTop ℚ × String) → ℕ → List (WithTop ℚ × String)
  | 0, h, _ => h
  | fuel + 1, h, i =>
    if i = 0 then h
    else
      let parent := (i - 1) / 2
      if prio h parent ≤ prio h i then h
      else bubbleUp fuel (hswap h parent i) parent

/-- One round of `bubbleDown`'s smallest-child selection: `smallest` after
the two bounds-checked comparisons of the loop body. -/
def smallestIdx (h : List (WithTop ℚ × String)) (i : ℕ) : ℕ :=
  let len := h.length
  let l := 2 * i + 1
  let r := 2 * i + 2
  let s1 := if l < len ∧ prio h l < prio h i then l else i
  if r < len ∧ prio h r < prio h s1 then r else s1

/-- `bubbleDown(index)`: sift the entry at `index` towards the leaves. -/
def bubbleDown : ℕ → List (WithTop ℚ × String) → ℕ → List (WithTop ℚ × String)
  | 0, h, _ => h
  | fuel + 1, h, i =>
    let s2 := smallestIdx h i
    if s2 = i then h else bubbleDown fuel (hswap h s2 i) s2

/-- `enqueue(value, priority)`: push at the end, then bubble up. -/
def enqueue (h : List (WithTop ℚ × String)) (value : String) (priority : WithTop ℚ) :
    List (WithTop ℚ × String) :=
  bubbleUp (h.length + 1) (h ++ [(priority, value)]) h.length

/-- `dequeue()`: return the root's value; move the popped last entry to the
root and bubble it down. -/
def dequeue (h : List (WithTop ℚ × String)) :
    Option (String × List (WithTop ℚ × String)) :=
  match h with
  | [] => none
  | min :: rest =>
    match (min :: rest).getLast? with
    | none => none
    | some last =>
      let remaining := (min :: rest).dropLast
      if remaining.isEmpty then some (min.2, remaining)
      else some (min.2, bubbleDown remaining.length (remaining.set 0 last) 0)

/-! ## The graph data model -/

/-- `Node` (`id`, coordinates, display label, category tag). -/
structure Node where
  id : String
  x : ℚ
  y : ℚ
  label : String
  ntype : String
deriving DecidableEq, Repr

/-- `Edge` (`from` is `fromId` here: `from` is reserved in Lean). -/
structure Edge where
  fromId : String
  toId : String
  weight : ℚ
  traffic : ℚ
  blocked : Bool
deriving DecidableEq, Repr

/-- `Graph`: node map and adjacency map. -/
structure Graph where
  nodes : List (String × Node)
  edges : List (String × List Edge)
deriving DecidableEq, Repr

/-- Total number of edge records of the graph. -/
def totalEdges (g : Graph) : ℕ := (g.edges.map (fun p => p.2.length)).sum

/-! ## Shared result shape and path reconstruction -/

/-- The result record of `dijkstra` and `aStar`. -/
structure SearchResult where
  path : List String
  distance : WithTop ℚ
  visited : List String
deriving DecidableEq, Repr

/-- The result record of `bellmanFord`. -/
structure BFResult where
  path : List String
  distance : WithTop ℚ
  hasNegativeCycle : Bool
deriving DecidableEq, Repr

/-- `distances.get(endId) || Infinity`: a missing entry — but also a stored
`0`, which is falsy in JavaScript — yields `Infinity`. -/
def jsOrInfinity : Option (WithTop ℚ) → WithTop ℚ
  | some d => if d = 0 then ⊤ else d
  | none => ⊤

/-- `previous.get(current) || null`: `undefined`, `null` and the falsy empty
string all step to `null`. -/
def reconNext (previous : List (String × Option String)) (c : String) : Option String :=
  match mget previous c with
  | some (some p) => if p = "" then none else some p
  | _ => none

/-- The body of the reconstruction `while (current !== null)` loop:
`path.unshift(current); current = previous.get(current) || null`.
`none` models divergence of the source loop. -/
def reconGo (previous : List (String × Option String)) :
    ℕ → Option String → List String → Option (List String)
  | 0, _, _ => none
  | _ + 1, none, path => some path
  | fuel + 1, some c, path => reconGo previous fuel (reconNext previous c) (c :: path)

/-- Path reconstruction from `endId`.  A walk that has not reached `null`
within `previous.length + 2` steps has visited `previous.length + 1` ids that
are all keys of `previous`, hence repeated one; the deterministic walk is then
periodic and the source loop diverges, which `none` records. -/
def reconstructPath (previous : List (String × Option String)) (endId : String) :
    Option (List String) :=
  reconGo previous (previous.length + 2) (some endId) []

/-- Initialisation loop shared by all three algorithms:
`graph.nodes.forEach((_, id) => distances.set(id, id === startId ? 0 : Infinity))`. -/
def initDistances (g : Graph) (startId : String) : List (String × WithTop ℚ) :=
  g.nodes.foldl (fun m p => mset m p.1 (if p.1 = startId then 0 else ⊤)) []

/-- `graph.nodes.forEach((_, id) => previous.set(id, null))`. -/
def initPrevious (g : Graph) : List (String × Option String) :=
  g.nodes.foldl (fun m p => mset m p.1 none) []

/-! ## Dijkstra -/

/-- The effective-weight computation of `dijkstra` (lines 111–114):
`let effectiveWeight = edge.weight; if (!isEmergency) effectiveWeight *= (1 + edge.traffic * 2)`. -/
def dijkstraCost (edge : Edge) (isEmergency : Bool) : ℚ :=
  if !isEmergency then edge.weight * (1 + edge.traffic * 2) else edge.weight

/-- The skip test of `dijkstra` (line 107): `if (edge.blocked && !isEmergency) continue`. -/
def dijkstraSkips (edge : Edge) (isEmergency : Bool) : Bool :=
  edge.blocked && !isEmergency

/-- The mutable per-call state of a `dijkstra` run.  The graph is part of the
state so that the no-mutation contract is a provable frame property. -/
structure DState where
  graph : Graph
  distances : List (String × WithTop ℚ)
  previous : List (String × Option String)
  visited : List String
  pq : List (WithTop ℚ × String)
deriving DecidableEq, Repr

/-- The relaxation of one edge out of `current` (lines 106–123). -/
def dijkstraRelax (isEmergency : Bool) (current : String) (st : DState) (edge : Edge) :
    DState :=
  if dijkstraSkips edge isEmergency then st
  else
    let neighbor := edge.toId
    let effectiveWeight := dijkstraCost edge isEmergency
    match mget st.distances current, mget st.distances neighbor with
    | some dc, some dn =>
      let distance := dc + (effectiveWeight : WithTop ℚ)
      if distance < dn then
        { st with
          distances := mset st.distances neighbor distance
          previous := mset st.previous neighbor (some current)
          pq := enqueue st.pq neighbor distance }
      else st
    | _, _ => st

/-- The main `while (!pq.isEmpty())` loop of `dijkstra` (lines 97–124). -/
def dijkstraLoop (endId : String) (isEmergency : Bool) : ℕ → DState → Option DState
  | 0, _ => none
  | fuel + 1, st =>
    match dequeue st.pq with
    | none => some st
    | some (current, pq') =>
      if current ∈ st.visited then
        dijkstraLoop endId isEmergency fuel { st with pq := pq' }
      else
        let st' := { st with pq := pq', visited := st.visited ++ [current] }
        if current = endId then some st'
        else
          let edges := (mget st.graph.edges current).getD []
          dijkstraLoop endId isEmergency fuel
            (edges.foldl (dijkstraRelax isEmergency current) st')

/-- The state right before the loop (lines 84–95). -/
def dijkstraInit (g : Graph) (startId : String) : DState :=
  { graph := g
    distances := initDistances g startId
    previous := initPrevious g
    visited := []
    pq := enqueue [] startId 0 }

/-- Keys of `distances` not yet visited. -/
def unvisitedCount (st : DState) : ℕ :=
  ((mkeys st.distances).filter (fun k => decide (k ∉ st.visited))).length

/-- A strict upper bound on the remaining loop iterations: every iteration
either settles an unvisited key of `distances` (enqueuing at most
`totalEdges` entries) or strictly shrinks the queue. -/
def dMeasure (st : DState) : ℕ :=
  unvisitedCount st * (totalEdges st.graph + 1) + st.pq.length

/-- The search phase of `dijkstra`: the loop with provably sufficient fuel. -/
def dijkstraSearch (g : Graph) (startId endId : String) (isEmergency : Bool) :
    Option DState :=
  let st := dijkstraInit g startId
  dijkstraLoop endId isEmergency (dMeasure st + 1) st

/-- `dijkstra(graph, startId, endId, isEmergency)` (lines 78–139).
`none` records divergence of the source's reconstruction loop. -/
def dijkstra (g : Graph) (startId endId : String) (isEmergency : Bool) :
    Option SearchResult :=
  match dijkstraSearch g startId endId isEmergency with
  | none => none
  | some st =>
    match reconstructPath st.previous endId with
    | none => none
    | some path =>
      some { path := if path.head? = some startId then path else []
             distance := jsOrInfinity (mget st.distances endId)
             visited := st.visited }

/-! ## A*

The source builds its heuristic internally as the Euclidean distance from a
node's coordinates to the destination's (`Math.sqrt` on floats).  The
embedding parameterises the search over the heuristic function and
characterises the source's Euclidean heuristic algebraically: it is the
unique function that is `⊤` on missing nodes and the non-negative square root
of the coordinate-difference sum of squares on present ones. -/

/-- The effective-weight computation of `aStar` (lines 186–189), textually
identical to `dijkstra`'s. -/
def aStarCost (edge : Edge) (isEmergency : Bool) : ℚ :=
  if !isEmergency then edge.weight * (1 + edge.traffic * 2) else edge.weight

/-- The skip test of `aStar` (line 183). -/
def aStarSkips (edge : Edge) (isEmergency : Bool) : Bool :=
  edge.blocked && !isEmergency

/-- The heuristic of `aStar` (lines 152–157): `⊤` on a missing node, else the
Euclidean distance to the destination node's coordinates. -/
def IsEuclidHeuristic (g : Graph) (endId : String) (h : String → WithTop ℚ) : Prop :=
  ∃ en, mget g.nodes endId = some en ∧
    ∀ id, match mget g.nodes id with
      | none => h id = ⊤
      | some n => ∃ q : ℚ, 0 ≤ q ∧
          q * q = (n.x - en.x) * (n.x - en.x) + (n.y - en.y) * (n.y - en.y) ∧
          h id = (q : WithTop ℚ)

/-- The mutable per-call state of an `aStar` run. -/
structure AState where
  graph : Graph
  gScore : List (String × WithTop ℚ)
  fScore : List (String × WithTop ℚ)
  previous : List (String × Option String)
  visited : List String
  pq : List (WithTop ℚ × String)
deriving DecidableEq, Repr

/-- The relaxation of one edge out of `current` (lines 182–199).  The enqueue
priority is `fScore.get(neighbor)!` immediately after the set, i.e. the value
just written. -/
def aStarRelax (isEmergency : Bool) (h : String → WithTop ℚ) (current : String)
    (st : AState) (edge : Edge) : AState :=
  if aStarSkips edge isEmergency then st
  else
    let neighbor := edge.toId
    let effectiveWeight := aStarCost edge isEmergency
    match mget st.gScore current, mget st.gScore neighbor with
    | some gc, some gn =>
      let tentativeGScore := gc + (effectiveWeight : WithTop ℚ)
      if tentativeGScore < gn then
        { st with
          previous := mset st.previous neighbor (some current)
          gScore := mset st.gScore neighbor tentativeGScore
          fScore := mset st.fScore neighbor (tentativeGScore + h neighbor)
          pq := enqueue st.pq neighbor (tentativeGScore + h neighbor) }
      else st
    | _, _ => st

/-- The main loop of `aStar` (lines 173–200), same shape as `dijkstra`'s. -/
def aStarLoop (endId : String) (isEmergency : Bool) (h : String → WithTop ℚ) :
    ℕ → AState → Option AState
  | 0, _ => none
  | fuel + 1, st =>
    match dequeue st.pq with
    | none => some st
    | some (current, pq') =>
      if current ∈ st.visited then
        aStarLoop endId isEmergency h fuel { st with pq := pq' }
      else
        let st' := { st with pq := pq', visited := st.visited ++ [current] }
        if current = endId then some st'
        else
          let edges := (mget st.graph.edges current).getD []
          aStarLoop endId isEmergency h fuel
            (edges.foldl (aStarRelax isEmergency h current) st')

/-- `gScore`/`fScore`/`previous` initialisation (lines 165–169): note the
source stores `heuristic(startId)` (not `heuristic(id)`) at the start key. -/
def aStarInitF (g : Graph) (startId : String) (h : String → WithTop ℚ) :
    List (String × WithTop ℚ) :=
  g.nodes.foldl (fun m p => mset m p.1 (if p.1 = startId then h startId else ⊤)) []

/-- The state right before the loop (lines 159–171); the initial enqueue
priority is `fScore.get(startId)!`. -/
def aStarInit (g : Graph) (startId : String) (h : String → WithTop ℚ) : AState :=
  let fScore := aStarInitF g startId h
  { graph := g
    gScore := initDistances g startId
    fScore := fScore
    previous := initPrevious g
    visited := []
    pq := enqueue [] startId ((mget fScore startId).getD ⊤) }

/-- Keys of `gScore` not yet visited. -/
def aUnvisitedCount (st : AState) : ℕ :=
  ((mkeys st.gScore).filter (fun k => decide (k ∉ st.visited))).length

/-- Loop-iteration bound for `aStar`, as for `dijkstra`. -/
def aMeasure (st : AState) : ℕ :=
  aUnvisitedCount st * (totalEdges st.graph + 1) + st.pq.length

/-- `aStar(graph, startId, endId, isEmergency)` (lines 142–215),
parameterised over the heuristic the source closes over. -/
def aStarH (g : Graph) (startId endId : String) (isEmergency : Bool)
    (h : String → WithTop ℚ) : Option SearchResult :=
  match mget g.nodes startId, mget g.nodes endId with
  | some _, some _ =>
    let st0 := aStarInit g startId h
    match aStarLoop endId isEmergency h (aMeasure st0 + 1) st0 with
    | none => none
    | some st =>
      match reconstructPath st.previous endId with
      | none => none
      | some path =>
        some { path := if path.head? = some startId then path else []
               distance := jsOrInfinity (mget st.gScore endId)
               visited := st.visited }
  | _, _ => some { path := [], distance := ⊤, visited := [] }

/-! ## Bellman–Ford -/

/-- The keep test of `bellmanFord`'s edge collection (line 237):
`if (!edge.blocked || isEmergency)`. -/
def bellmanKeeps (edge : Edge) (isEmergency : Bool) : Bool :=
  !edge.blocked || isEmergency

/-- The effective-weight computation of `bellmanFord` (lines 238–241). -/
def bellmanCost (edge : Edge) (isEmergency : Bool) : ℚ :=
  if !isEmergency then edge.weight * (1 + edge.traffic * 2) else edge.weight

/-- The flat `allEdges` list (lines 234–245): source id is the adjacency-map
key, target and effective weight from the edge record. -/
def allEdgesList (g : Graph) (isEmergency : Bool) : List (String × String × ℚ) :=
  g.edges.foldl (fun acc p =>
    p.2.foldl (fun acc2 edge =>
      if bellmanKeeps edge isEmergency then
        acc2 ++ [(p.1, edge.toId, bellmanCost edge isEmergency)]
      else acc2) acc) []

/-- The mutable state of a `bellmanFord` run before path reconstruction. -/
structure BFState where
  graph : Graph
  distances : List (String × WithTop ℚ)
  previous : List (String × Option String)
deriving DecidableEq, Repr

/-- Relaxation of one collected edge (lines 250–256). -/
def bfRelax (st : BFState) (e : String × String × ℚ) : BFState :=
  match mget st.distances e.1, mget st.distances e.2.1 with
  | some du, some dv =>
    let newDist := du + (e.2.2 : WithTop ℚ)
    if newDist < dv then
      { st with
        distances := mset st.distances e.2.1 newDist
        previous := mset st.previous e.2.1 (some e.1) }
    else st
  | _, _ => st

/-- The `|V| - 1` relaxation passes (lines 248–257). -/
def bfPasses (edges : List (String × String × ℚ)) : ℕ → BFState → BFState
  | 0, st => st
  | n + 1, st => bfPasses edges n (edges.foldl bfRelax st)

/-- The extra detection pass (lines 260–266); `List.any` models the `break`. -/
def bfHasNegCycle (st : BFState) (edges : List (String × String × ℚ)) : Bool :=
  edges.any (fun e =>
    match mget st.distances e.1, mget st.distances e.2.1 with
    | some du, some dv => decide (du + (e.2.2 : WithTop ℚ) < dv)
    | _, _ => false)

/-- Distances, predecessors and the cycle flag of `bellmanFord`, i.e. the
whole function up to path reconstruction (lines 218–266). -/
structure BFCore where
  graph : Graph
  distances : List (String × WithTop ℚ)
  previous : List (String × Option String)
  hasNegativeCycle : Bool
deriving DecidableEq, Repr

/-- `bellmanFord` up to path reconstruction.  `nodeCount` is `Map.size`, the
number of distinct keys. -/
def bellmanCore (g : Graph) (startId : String) (isEmergency : Bool) : BFCore :=
  let st0 : BFState := ⟨g, initDistances g startId, initPrevious g⟩
  let allEdges := allEdgesList g isEmergency
  let nodeCount := (mkeys g.nodes).dedup.length
  let st := bfPasses allEdges (nodeCount - 1) st0
  ⟨st.graph, st.distances, st.previous, bfHasNegCycle st allEdges⟩

/-- `bellmanFord(graph, startId, endId, isEmergency)` (lines 218–281).
`none` records divergence of the source's reconstruction loop. -/
def bellmanFord (g : Graph) (startId endId : String) (isEmergency : Bool) :
    Option BFResult :=
  let core := bellmanCore g startId isEmergency
  match reconstructPath core.previous endId with
  | none => none
  | some path =>
    some { path := if path.head? = some startId then path else []
           distance := jsOrInfinity (mget core.distances endId)
           hasNegativeCycle := core.hasNegativeCycle }

/-! ## Claim-level reference definitions

These definitions follow the specification's words (§4.2 Cost Evaluator,
§3 path/distance) rather than any one algorithm's inline code; the claims
compare the three embedded algorithms against them. -/

/-- §4.2, spec side: an edge is traversable iff `emergency` is true or the
edge is not blocked. -/
def specTraversable (edge : Edge) (isEmergency : Bool) : Bool :=
  isEmergency || !edge.blocked

/-- §4.2, spec side: `edge.weight` in emergency mode, else
`edge.weight * (1 + edge.traffic * 2)`. -/
def specEffectiveWeight (edge : Edge) (isEmergency : Bool) : ℚ :=
  if isEmergency then edge.weight else edge.weight * (1 + edge.traffic * 2)

/-- Claim side (C6): the graph with every edge unblocked and traffic zeroed. -/
def clearEdge (e : Edge) : Edge :=
  { e with blocked := false, traffic := 0 }

/-- Claim side (C6): apply `clearEdge` to every edge of the adjacency map. -/
def clearGraph (g : Graph) : Graph :=
  { g with edges := g.edges.map (fun p => (p.1, p.2.map clearEdge)) }

/-- Claim side (C1): the accumulated effective weight of a traversable path,
`none` if the id sequence is not a traversable path of the graph.  Between
consecutive ids the cheapest traversable parallel edge is charged; every id
on the path must be a key of the node map. -/
def pathWeight (g : Graph) (isEmergency : Bool) : List String → Option ℚ
  | [] => none
  | [v] => if v ∈ mkeys g.nodes then some 0 else none
  | u :: v :: rest =>
    let ws := ((mget g.edges u).getD []).filterMap
      (fun e => if e.toId = v ∧ specTraversable e isEmergency then
          some (specEffectiveWeight e isEmergency) else none)
    match ws.min?, pathWeight g isEmergency (v :: rest) with
    | some w, some rw => if u ∈ mkeys g.nodes then some (w + rw) else none
    | _, _ => none

/-! ## Lemmas: the map embedding -/

theorem mget_mset_self {α : Type} (m : List (String × α)) (k : String) (v : α) :
    mget (mset m k v) k = some v := by
  induction m with
  | nil => simp [mget, mset]
  | cons p t ih =>
    by_cases h : p.1 = k
    · simp [mget, mset, h]
    · simp [mget, mset, h, ih]

theorem mget_mset_ne {α : Type} (m : List (String × α)) {k k' : String} (v : α)
    (h : k' ≠ k) : mget (mset m k' v) k = mget m k := by
  induction m with
  | nil => simp [mget, mset, h]
  | cons p t ih =>
    by_cases hp : p.1 = k'
    · simp [mget, mset, hp, h]
    · by_cases hpk : p.1 = k
      · simp [mget, mset, hp, hpk, Ne.symm h]
      · simp [mget, mset, hp, hpk, ih]

theorem mget_eq_none_iff {α : Type} (m : List (String × α)) (k : String) :
    mget m k = none ↔ k ∉ mkeys m := by
  induction m with
  | nil => simp [mget, mkeys]
  | cons p t ih =>
    by_cases h : p.1 = k
    · simp [mget, mkeys, h]
    · simp [mget, mkeys, h, ih, Ne.symm h]

theorem mget_isSome_iff {α : Type} (m : List (String × α)) (k : String) :
    (mget m k).isSome ↔ k ∈ mkeys m := by
  rw [Option.isSome_iff_ne_none]
  simp [Ne, mget_eq_none_iff]

theorem mkeys_mset_of_mem {α : Type} (m : List (String × α)) {k : String} (v : α)
    (h : k ∈ mkeys m) : mkeys (mset m k v) = mkeys m := by
  induction m with
  | nil => simp [mkeys] at h
  | cons p t ih =>
    by_cases hp : p.1 = k
    · simp [mset, mkeys, hp]
    · have ht : k ∈ mkeys t := by
        rcases (by simpa [mkeys] using h) with h' | h'
        · exact absurd h'.symm hp
        · simpa [mkeys] using h'
      have h2 : List.map Prod.fst (mset t k v) = List.map Prod.fst t := by
        simpa [mkeys] using ih ht
      simp [mset, mkeys, hp, h2]

/-- A generic description of the initialisation folds: every node key is
bound to `f` of itself, every other key is untouched. -/
theorem mget_foldl_mset {α : Type} (l : List (String × Node)) (f : String → α)
    (m0 : List (String × α)) (k : String) :
    mget (l.foldl (fun m p => mset m p.1 (f p.1)) m0) k =
      if k ∈ mkeys l then some (f k) else mget m0 k := by
  induction l generalizing m0 with
  | nil => simp [mkeys]
  | cons p t ih =>
    by_cases h : k ∈ List.map Prod.fst t
    · simp [List.foldl_cons, ih, mkeys, h]
    · by_cases hp : p.1 = k
      · simp [List.foldl_cons, ih, mkeys, h, hp, mget_mset_self]
      · simp [List.foldl_cons, ih, mkeys, h, hp, Ne.symm hp, mget_mset_ne _ _ hp]

theorem mget_initDistances (g : Graph) (startId k : String) :
    mget (initDistances g startId) k =
      if k ∈ mkeys g.nodes then some (if k = startId then 0 else ⊤) else none := by
  have := mget_foldl_mset g.nodes
    (fun id => (if id = startId then (0 : WithTop ℚ) else ⊤)) [] k
  simpa [initDistances, mget] using this

theorem mget_initPrevious (g : Graph) (k : String) :
    mget (initPrevious g) k =
      if k ∈ mkeys g.nodes then some none else none := by
  have := mget_foldl_mset g.nodes (fun _ => (none : Option String)) [] k
  simpa [initPrevious, mget] using this

theorem mget_aStarInitF (g : Graph) (startId k : String) (h : String → WithTop ℚ) :
    mget (aStarInitF g startId h) k =
      if k ∈ mkeys g.nodes then some (if k = startId then h startId else ⊤) else none := by
  have := mget_foldl_mset g.nodes
    (fun id => (if id = startId then h startId else ⊤)) [] k
  simpa [aStarInitF, mget] using this

/-! ## Lemmas: the priority queue -/

theorem hswap_length (h : List (WithTop ℚ × String)) (a b : ℕ) :
    (hswap h a b).length = h.length := by
  unfold hswap
  cases hga : h.get? a with
  | none => simp
  | some x =>
    cases hgb : h.get? b with
    | none => simp
    | some y => simp [List.length_set]

theorem bubbleUp_length : ∀ (fuel : ℕ) (h : List (WithTop ℚ × String)) (i : ℕ),
    (bubbleUp fuel h i).length = h.length
  | 0, _, _ => rfl
  | fuel + 1, h, i => by
    unfold bubbleUp
    by_cases hi : i = 0
    · simp [hi]
    · simp only [hi, if_false]
      by_cases hp : prio h ((i - 1) / 2) ≤ prio h i
      · simp [hp]
      · simp [hp, bubbleUp_length fuel, hswap_length]

theorem bubbleDown_length : ∀ (fuel : ℕ) (h : List (WithTop ℚ × String)) (i : ℕ),
    (bubbleDown fuel h i).length = h.length
  | 0, _, _ => rfl
  | fuel + 1, h, i => by
    unfold bubbleDown
    by_cases hs : smallestIdx h i = i
    · simp [hs]
    · simp [hs, bubbleDown_length fuel, hswap_length]

theorem enqueue_length (h : List (WithTop ℚ × String)) (v : String) (p : WithTop ℚ) :
    (enqueue h v p).length = h.length + 1 := by
  simp [enqueue, bubbleUp_length]

theorem dequeue_eq_none_iff (h : List (WithTop ℚ × String)) :
    dequeue h = none ↔ h = [] := by
  match h with
  | [] => simp [dequeue]
  | min :: rest =>
    rw [show dequeue (min :: rest)
        = match (min :: rest).getLast? with
          | none => none
          | some last =>
            let remaining := (min :: rest).dropLast
            if remaining.isEmpty then some (min.2, remaining)
            else some (min.2, bubbleDown remaining.length (remaining.set 0 last) 0)
      from rfl]
    cases hl : (min :: rest).getLast? with
    | none => simp at hl
    | some last =>
      by_cases he : ((min :: rest).dropLast).isEmpty <;> simp [he]

theorem dequeue_length {h h' : List (WithTop ℚ × String)} {v : String}
    (hd : dequeue h = some (v, h')) : h'.length + 1 = h.length := by
  match h with
  | [] => simp [dequeue] at hd
  | min :: rest =>
    rw [show dequeue (min :: rest)
        = match (min :: rest).getLast? with
          | none => none
          | some last =>
            let remaining := (min :: rest).dropLast
            if remaining.isEmpty then some (min.2, remaining)
            else some (min.2, bubbleDown remaining.length (remaining.set 0 last) 0)
      from rfl] at hd
    cases hl : (min :: rest).getLast? with
    | none => simp at hl
    | some last =>
      rw [hl] at hd
      simp only at hd
      by_cases he : ((min :: rest).dropLast).isEmpty
      · rw [if_pos he] at hd
        cases hd
        simp [List.length_dropLast]
      · rw [if_neg he] at hd
        cases hd
        simp [bubbleDown_length, List.length_set, List.length_dropLast]

/-- The multiset of queued values only ever shrinks through `hswap`. -/
theorem mem_pqValues_hswap {h : List (WithTop ℚ × String)} {a b : ℕ} {x : String}
    (hx : x ∈ (hswap h a b).map Prod.snd) : x ∈ h.map Prod.snd := by
  unfold hswap at hx
  cases hga : h.get? a with
  | none => rw [hga] at hx; exact hx
  | some ea =>
    cases hgb : h.get? b with
    | none => rw [hga, hgb] at hx; exact hx
    | some eb =>
      rw [hga, hgb] at hx
      rcases List.mem_map.mp hx with ⟨e, he, hex⟩
      rcases List.mem_or_eq_of_mem_set he with he' | he'
      · rcases List.mem_or_eq_of_mem_set he' with he'' | he''
        · exact List.mem_map.mpr ⟨e, he'', hex⟩
        · subst he''
          exact List.mem_map.mpr ⟨e, List.get?_mem hgb, hex⟩
      · subst he'
        exact List.mem_map.mpr ⟨e, List.get?_mem hga, hex⟩

theorem mem_pqValues_bubbleUp : ∀ {fuel : ℕ} {h : List (WithTop ℚ × String)} {i : ℕ}
    {x : String}, x ∈ (bubbleUp fuel h i).map Prod.snd → x ∈ h.map Prod.snd := by
  intro fuel
  induction fuel with
  | zero => intro h i x hx; exact hx
  | succ fuel ih =>
    intro h i x hx
    rw [bubbleUp] at hx
    by_cases hi : i = 0
    · rw [if_pos hi] at hx; exact hx
    · rw [if_neg hi] at hx
      by_cases hp : prio h ((i - 1) / 2) ≤ prio h i
      · rw [if_pos hp] at hx; exact hx
      · rw [if_neg hp] at hx
        exact mem_pqValues_hswap (ih hx)

theorem mem_pqValues_bubbleDown : ∀ {fuel : ℕ} {h : List (WithTop ℚ × String)} {i : ℕ}
    {x : String}, x ∈ (bubbleDown fuel h i).map Prod.snd → x ∈ h.map Prod.snd := by
  intro fuel
  induction fuel with
  | zero => intro h i x hx; exact hx
  | succ fuel ih =>
    intro h i x hx
    rw [bubbleDown] at hx
    by_cases hs : smallestIdx h i = i
    · rw [if_pos hs] at hx; exact hx
    · rw [if_neg hs] at hx
      exact mem_pqValues_hswap (ih hx)

theorem mem_pqValues_enqueue {h : List (WithTop ℚ × String)} {v x : String}
    {p : WithTop ℚ} (hx : x ∈ (enqueue h v p).map Prod.snd) :
    x = v ∨ x ∈ h.map Prod.snd := by
  have := mem_pqValues_bubbleUp hx
  rcases List.mem_map.mp this with ⟨e, he, hex⟩
  rcases List.mem_append.mp he with he' | he'
  · exact Or.inr (List.mem_map.mpr ⟨e, he', hex⟩)
  · simp at he'
    subst he'
    exact Or.inl hex.symm

theorem dequeue_mem {h h' : List (WithTop ℚ × String)} {v : String}
    (hd : dequeue h = some (v, h')) :
    v ∈ h.map Prod.snd ∧ ∀ x ∈ h'.map Prod.snd, x ∈ h.map Prod.snd := by
  match h with
  | [] => simp [dequeue] at hd
  | min :: rest =>
    rw [show dequeue (min :: rest)
        = match (min :: rest).getLast? with
          | none => none
          | some last =>
            let remaining := (min :: rest).dropLast
            if remaining.isEmpty then some (min.2, remaining)
            else some (min.2, bubbleDown remaining.length (remaining.set 0 last) 0)
      from rfl] at hd
    cases hl : (min :: rest).getLast? with
    | none => simp at hl
    | some last =>
      rw [hl] at hd
      simp only at hd
      have hlast : last ∈ min :: rest := List.mem_of_mem_getLast? hl
      have hdrop : ∀ x ∈ ((min :: rest).dropLast).map Prod.snd,
          x ∈ (min :: rest).map Prod.snd := by
        intro x hx
        rcases List.mem_map.mp hx with ⟨e, he, hex⟩
        exact List.mem_map.mpr ⟨e, List.dropLast_subset _ he, hex⟩
      by_cases he : ((min :: rest).dropLast).isEmpty
      · rw [if_pos he] at hd
        cases hd
        exact ⟨List.mem_map.mpr ⟨min, List.mem_cons_self _ _, rfl⟩, hdrop⟩
      · rw [if_neg he] at hd
        cases hd
        refine ⟨List.mem_map.mpr ⟨min, List.mem_cons_self _ _, rfl⟩, ?_⟩
        intro x hx
        have hx' := mem_pqValues_bubbleDown hx
        rcases List.mem_map.mp hx' with ⟨e, he', hex⟩
        rcases List.mem_or_eq_of_mem_set he' with he'' | he''
        · exact hdrop x (List.mem_map.mpr ⟨e, he'', hex⟩)
        · subst he''
          exact List.mem_map.mpr ⟨e, hlast, hex⟩

/-! ## Lemmas: shifting all priorities by a constant

`aStar` with a heuristic that is constant `c` on the graph's nodes enqueues
exactly the priorities `dijkstra` enqueues, shifted by `c`; every heap
comparison is invariant under the shift, so the heaps evolve in lockstep. -/

/-- Shift every priority of the heap by the finite constant `c`. -/
def pqShift (c : ℚ) (h : List (WithTop ℚ × String)) : List (WithTop ℚ × String) :=
  h.map (fun e => (e.1 + (c : WithTop ℚ), e.2))

theorem pqShift_length (c : ℚ) (h : List (WithTop ℚ × String)) :
    (pqShift c h).length = h.length := by
  simp [pqShift]

theorem prio_pqShift (c : ℚ) (h : List (WithTop ℚ × String)) (i : ℕ) :
    prio (pqShift c h) i = prio h i + (c : WithTop ℚ) := by
  unfold prio pqShift
  rw [List.get?_map]
  cases hg : h.get? i with
  | none => simp [WithTop.top_add]
  | some e => simp

theorem prio_pqShift_le_iff (c : ℚ) (h : List (WithTop ℚ × String)) (a b : ℕ) :
    prio (pqShift c h) a ≤ prio (pqShift c h) b ↔ prio h a ≤ prio h b := by
  rw [prio_pqShift, prio_pqShift, WithTop.add_le_add_iff_right WithTop.coe_ne_top]

theorem prio_pqShift_lt_iff (c : ℚ) (h : List (WithTop ℚ × String)) (a b : ℕ) :
    prio (pqShift c h) a < prio (pqShift c h) b ↔ prio h a < prio h b := by
  rw [prio_pqShift, prio_pqShift, WithTop.add_lt_add_iff_right WithTop.coe_ne_top]

theorem hswap_pqShift (c : ℚ) (h : List (WithTop ℚ × String)) (a b : ℕ) :
    hswap (pqShift c h) a b = pqShift c (hswap h a b) := by
  have hga2 : (pqShift c h).get? a
      = (h.get? a).map (fun e => (e.1 + (c : WithTop ℚ), e.2)) := List.get?_map _ _ _
  have hgb2 : (pqShift c h).get? b
      = (h.get? b).map (fun e => (e.1 + (c : WithTop ℚ), e.2)) := List.get?_map _ _ _
  unfold hswap
  rw [hga2, hgb2]
  cases hga : h.get? a with
  | none => simp
  | some x =>
    cases hgb : h.get? b with
    | none => simp
    | some y => simp [pqShift, List.map_set]

theorem smallestIdx_pqShift (c : ℚ) (h : List (WithTop ℚ × String)) (i : ℕ) :
    smallestIdx (pqShift c h) i = smallestIdx h i := by
  unfold smallestIdx
  dsimp only
  rw [pqShift_length]
  have e1 : (if 2 * i + 1 < h.length ∧ prio (pqShift c h) (2 * i + 1) < prio (pqShift c h) i
        then 2 * i + 1 else i)
      = (if 2 * i + 1 < h.length ∧ prio h (2 * i + 1) < prio h i then 2 * i + 1 else i) := by
    by_cases h1 : 2 * i + 1 < h.length ∧ prio h (2 * i + 1) < prio h i
    · rw [if_pos h1, if_pos ⟨h1.1, (prio_pqShift_lt_iff c h _ _).mpr h1.2⟩]
    · rw [if_neg h1, if_neg (fun hc => h1 ⟨hc.1, (prio_pqShift_lt_iff c h _ _).mp hc.2⟩)]
  rw [e1]
  by_cases h2 : 2 * i + 2 < h.length ∧ prio h (2 * i + 2)
      < prio h (if 2 * i + 1 < h.length ∧ prio h (2 * i + 1) < prio h i then 2 * i + 1 else i)
  · rw [if_pos h2, if_pos ⟨h2.1, (prio_pqShift_lt_iff c h _ _).mpr h2.2⟩]
  · rw [if_neg h2, if_neg (fun hc => h2 ⟨hc.1, (prio_pqShift_lt_iff c h _ _).mp hc.2⟩)]

theorem bubbleUp_pqShift : ∀ (fuel : ℕ) (c : ℚ) (h : List (WithTop ℚ × String)) (i : ℕ),
    bubbleUp fuel (pqShift c h) i = pqShift c (bubbleUp fuel h i)
  | 0, _, _, _ => rfl
  | fuel + 1, c, h, i => by
    unfold bubbleUp
    by_cases hi : i = 0
    · rw [if_pos hi, if_pos hi]
    · rw [if_neg hi, if_neg hi]
      by_cases hp : prio h ((i - 1) / 2) ≤ prio h i
      · rw [if_pos hp, if_pos ((prio_pqShift_le_iff c h _ _).mpr hp)]
      · rw [if_neg hp, if_neg (fun hc => hp ((prio_pqShift_le_iff c h _ _).mp hc)),
          hswap_pqShift, bubbleUp_pqShift fuel]

theorem bubbleDown_pqShift : ∀ (fuel : ℕ) (c : ℚ) (h : List (WithTop ℚ × String)) (i : ℕ),
    bubbleDown fuel (pqShift c h) i = pqShift c (bubbleDown fuel h i)
  | 0, _, _, _ => rfl
  | fuel + 1, c, h, i => by
    unfold bubbleDown
    rw [smallestIdx_pqShift]
    by_cases hs : smallestIdx h i = i
    · rw [if_pos hs, if_pos hs]
    · rw [if_neg hs, if_neg hs, hswap_pqShift, bubbleDown_pqShift fuel]

theorem enqueue_pqShift (c : ℚ) (h : List (WithTop ℚ × String)) (v : String)
    (p : WithTop ℚ) :
    enqueue (pqShift c h) v (p + (c : WithTop ℚ)) = pqShift c (enqueue h v p) := by
  unfold enqueue
  rw [pqShift_length,
    show pqShift c h ++ [(p + (c : WithTop ℚ), v)] = pqShift c (h ++ [(p, v)]) by
      simp [pqShift],
    bubbleUp_pqShift]

theorem dequeue_pqShift (c : ℚ) (h : List (WithTop ℚ × String)) :
    dequeue (pqShift c h) = (dequeue h).map (fun r => (r.1, pqShift c r.2)) := by
  match h with
  | [] => rfl
  | min :: rest =>
    have hmap : pqShift c (min :: rest)
        = (min.1 + (c : WithTop ℚ), min.2) :: pqShift c rest := rfl
    rw [hmap]
    show (match ((min.1 + (c : WithTop ℚ), min.2) :: pqShift c rest).getLast? with
      | none => none
      | some last =>
        let remaining := ((min.1 + (c : WithTop ℚ), min.2) :: pqShift c rest).dropLast
        if remaining.isEmpty then some ((min.1 + (c : WithTop ℚ), min.2).2, remaining)
        else some ((min.1 + (c : WithTop ℚ), min.2).2,
          bubbleDown remaining.length (remaining.set 0 last) 0)) = _
    have hlast : ((min.1 + (c : WithTop ℚ), min.2) :: pqShift c rest).getLast?
        = ((min :: rest).getLast?).map (fun e => (e.1 + (c : WithTop ℚ), e.2)) := by
      rw [← hmap]
      exact List.getLast?_map _ _
    cases hl : (min :: rest).getLast? with
    | none => simp at hl
    | some last =>
      rw [hl] at hlast
      rw [hlast]
      simp only [Option.map_some']
      have hdrop : ((min.1 + (c : WithTop ℚ), min.2) :: pqShift c rest).dropLast
          = pqShift c ((min :: rest).dropLast) := by
        rw [← hmap, pqShift, pqShift, List.map_dropLast]
      rw [show dequeue (min :: rest)
          = match (min :: rest).getLast? with
            | none => none
            | some last =>
              let remaining := (min :: rest).dropLast
              if remaining.isEmpty then some (min.2, remaining)
              else some (min.2, bubbleDown remaining.length (remaining.set 0 last) 0)
        from rfl, hl]
      simp only []
      rw [hdrop]
      by_cases he : ((min :: rest).dropLast).isEmpty
      · have he' : (pqShift c ((min :: rest).dropLast)).isEmpty := by
          rw [List.isEmpty_iff] at he ⊢
          simp [pqShift, he]
        rw [if_pos he', if_pos he]
        simp [List.isEmpty_iff.mp he', List.isEmpty_iff.mp he]
      · have he' : ¬(pqShift c ((min :: rest).dropLast)).isEmpty := by
          rw [List.isEmpty_iff] at he ⊢
          intro hc
          apply he
          have h0 : ((min :: rest).dropLast).length = 0 := by
            simpa [pqShift_length] using congrArg List.length hc
          exact List.length_eq_zero.mp h0
        rw [if_neg he', if_neg he]
        rw [pqShift_length,
          show (pqShift c ((min :: rest).dropLast)).set 0 (last.1 + (c : WithTop ℚ), last.2)
            = pqShift c (((min :: rest).dropLast).set 0 last) by
              simp [pqShift, List.map_set],
          bubbleDown_pqShift]
        rfl

/-! ## Lemmas: lists of unvisited keys -/

theorem length_filter_not_mem_append_le (keys visited : List String) (current : String) :
    (keys.filter (fun k => decide (k ∉ visited ++ [current]))).length
      ≤ (keys.filter (fun k => decide (k ∉ visited))).length := by
  induction keys with
  | nil => simp
  | cons a t ih =>
    simp only [List.filter_cons]
    by_cases ha : a ∈ visited ++ [current]
    · have ha2 : (decide (a ∉ visited ++ [current])) = false := by simp [ha]
      rw [ha2]
      by_cases hb : a ∈ visited
      · have hb2 : (decide (a ∉ visited)) = false := by simp [hb]
        rw [hb2]
        simpa using ih
      · have hb2 : (decide (a ∉ visited)) = true := by simp [hb]
        rw [hb2]
        simp only [if_false, if_true, List.length_cons]
        exact Nat.le_succ_of_le ih
    · have hb : a ∉ visited := fun hc => ha (List.mem_append.mpr (Or.inl hc))
      have ha2 : (decide (a ∉ visited ++ [current])) = true := by simp [ha]
      have hb2 : (decide (a ∉ visited)) = true := by simp [hb]
      rw [ha2, hb2]
      simpa using ih

theorem length_filter_not_mem_append_lt (keys visited : List String) (current : String)
    (hc : current ∈ keys) (hv : current ∉ visited) :
    (keys.filter (fun k => decide (k ∉ visited ++ [current]))).length + 1
      ≤ (keys.filter (fun k => decide (k ∉ visited))).length := by
  induction keys with
  | nil => simp at hc
  | cons a t ih =>
    simp only [List.filter_cons]
    by_cases hac : a = current
    · subst hac
      have h1 : (decide (a ∉ visited ++ [a])) = false := by simp
      have h2 : (decide (a ∉ visited)) = true := by simp [hv]
      rw [h1, h2]
      simp only [if_false, if_true, List.length_cons]
      exact Nat.succ_le_succ (length_filter_not_mem_append_le t visited a)
    · have hct : current ∈ t := by
        rcases List.mem_cons.mp hc with h | h
        · exact absurd h.symm hac
        · exact h
      by_cases hb : a ∈ visited
      · have h1 : (decide (a ∉ visited ++ [current])) = false := by
          simp [List.mem_append, hb]
        have h2 : (decide (a ∉ visited)) = false := by simp [hb]
        rw [h1, h2]
        simpa using ih hct
      · have ha : a ∉ visited ++ [current] := by
          simp [List.mem_append, hb, hac]
        have h1 : (decide (a ∉ visited ++ [current])) = true := by simp [ha]
        have h2 : (decide (a ∉ visited)) = true := by simp [hb]
        rw [h1, h2]
        simp only [if_true, List.length_cons]
        exact Nat.succ_le_succ (ih hct)

theorem mget_length_le_sum {α : Type} (l : List (String × List α)) (k : String)
    {es : List α} (h : mget l k = some es) :
    es.length ≤ (l.map (fun p => p.2.length)).sum := by
  induction l with
  | nil => simp [mget] at h
  | cons p t ih =>
    obtain ⟨pk, pv⟩ := p
    rw [show mget ((pk, pv) :: t) k = if pk = k then some pv else mget t k from rfl] at h
    by_cases hp : pk = k
    · rw [if_pos hp] at h
      cases h
      simp only [List.map_cons, List.sum_cons]
      exact Nat.le_add_right _ _
    · rw [if_neg hp] at h
      have := ih h
      simp only [List.map_cons, List.sum_cons]
      omega

theorem mget_edges_length_le (g : Graph) (k : String) {es : List Edge}
    (h : mget g.edges k = some es) : es.length ≤ totalEdges g :=
  mget_length_le_sum g.edges k h

/-! ## Lemmas: the dijkstra relaxation step and fold -/

theorem dijkstraRelax_graph (em : Bool) (cur : String) (st : DState) (e : Edge) :
    (dijkstraRelax em cur st e).graph = st.graph := by
  unfold dijkstraRelax
  by_cases hs : dijkstraSkips e em
  · simp [hs]
  · simp only [hs, Bool.false_eq_true, if_false]
    cases mget st.distances cur with
    | none => rfl
    | some dc =>
      cases mget st.distances e.toId with
      | none => rfl
      | some dn =>
        by_cases hlt : dc + (dijkstraCost e em : WithTop ℚ) < dn <;> simp [hlt]

theorem dijkstraRelax_visited (em : Bool) (cur : String) (st : DState) (e : Edge) :
    (dijkstraRelax em cur st e).visited = st.visited := by
  unfold dijkstraRelax
  by_cases hs : dijkstraSkips e em
  · simp [hs]
  · simp only [hs, Bool.false_eq_true, if_false]
    cases mget st.distances cur with
    | none => rfl
    | some dc =>
      cases mget st.distances e.toId with
      | none => rfl
      | some dn =>
        by_cases hlt : dc + (dijkstraCost e em : WithTop ℚ) < dn <;> simp [hlt]

theorem dijkstraRelax_distKeys (em : Bool) (cur : String) (st : DState) (e : Edge) :
    mkeys (dijkstraRelax em cur st e).distances = mkeys st.distances := by
  unfold dijkstraRelax
  by_cases hs : dijkstraSkips e em
  · simp [hs]
  · simp only [hs, Bool.false_eq_true, if_false]
    cases mget st.distances cur with
    | none => rfl
    | some dc =>
      cases hn : mget st.distances e.toId with
      | none => rfl
      | some dn =>
        by_cases hlt : dc + (dijkstraCost e em : WithTop ℚ) < dn
        · simp only [hlt, if_true]
          exact mkeys_mset_of_mem _ _
            ((mget_isSome_iff _ _).mp (by rw [hn]; rfl))
        · simp [hlt]

theorem dijkstraRelax_prevKeys (em : Bool) (cur : String) (st : DState) (e : Edge)
    (hk : mkeys st.previous = mkeys st.distances) :
    mkeys (dijkstraRelax em cur st e).previous = mkeys st.previous := by
  unfold dijkstraRelax
  by_cases hs : dijkstraSkips e em
  · simp [hs]
  · simp only [hs, Bool.false_eq_true, if_false]
    cases mget st.distances cur with
    | none => rfl
    | some dc =>
      cases hn : mget st.distances e.toId with
      | none => rfl
      | some dn =>
        by_cases hlt : dc + (dijkstraCost e em : WithTop ℚ) < dn
        · simp only [hlt, if_true]
          exact mkeys_mset_of_mem _ _
            (hk ▸ (mget_isSome_iff _ _).mp (by rw [hn]; rfl))
        · simp [hlt]

theorem dijkstraRelax_pq_length (em : Bool) (cur : String) (st : DState) (e : Edge) :
    (dijkstraRelax em cur st e).pq.length ≤ st.pq.length + 1 := by
  unfold dijkstraRelax
  by_cases hs : dijkstraSkips e em
  · simp [hs]
  · simp only [hs, Bool.false_eq_true, if_false]
    cases mget st.distances cur with
    | none => exact Nat.le_succ _
    | some dc =>
      cases mget st.distances e.toId with
      | none => exact Nat.le_succ _
      | some dn =>
        by_cases hlt : dc + (dijkstraCost e em : WithTop ℚ) < dn
        · simp [hlt, enqueue_length]
        · simp only [hlt, if_false]
          exact Nat.le_succ _

theorem dijkstraRelax_skip_none (em : Bool) (cur : String) (st : DState) (e : Edge)
    (h : mget st.distances cur = none) : dijkstraRelax em cur st e = st := by
  unfold dijkstraRelax
  by_cases hs : dijkstraSkips e em
  · simp [hs]
  · simp [hs, h]

theorem foldRelax_graph (em : Bool) (cur : String) (edges : List Edge) (st : DState) :
    (edges.foldl (dijkstraRelax em cur) st).graph = st.graph := by
  induction edges generalizing st with
  | nil => rfl
  | cons e t ih => rw [List.foldl_cons, ih, dijkstraRelax_graph]

theorem foldRelax_visited (em : Bool) (cur : String) (edges : List Edge) (st : DState) :
    (edges.foldl (dijkstraRelax em cur) st).visited = st.visited := by
  induction edges generalizing st with
  | nil => rfl
  | cons e t ih => rw [List.foldl_cons, ih, dijkstraRelax_visited]

theorem foldRelax_distKeys (em : Bool) (cur : String) (edges : List Edge) (st : DState) :
    mkeys (edges.foldl (dijkstraRelax em cur) st).distances = mkeys st.distances := by
  induction edges generalizing st with
  | nil => rfl
  | cons e t ih => rw [List.foldl_cons, ih, dijkstraRelax_distKeys]

theorem foldRelax_prevKeys (em : Bool) (cur : String) (edges : List Edge) (st : DState)
    (hk : mkeys st.previous = mkeys st.distances) :
    mkeys (edges.foldl (dijkstraRelax em cur) st).previous = mkeys st.previous := by
  induction edges generalizing st with
  | nil => rfl
  | cons e t ih =>
    rw [List.foldl_cons, ih _ (by rw [dijkstraRelax_prevKeys _ _ _ _ hk,
      dijkstraRelax_distKeys, hk]), dijkstraRelax_prevKeys _ _ _ _ hk]

theorem foldRelax_pq_length (em : Bool) (cur : String) (edges : List Edge) (st : DState) :
    (edges.foldl (dijkstraRelax em cur) st).pq.length ≤ st.pq.length + edges.length := by
  induction edges generalizing st with
  | nil => simp
  | cons e t ih =>
    rw [List.foldl_cons]
    calc (t.foldl (dijkstraRelax em cur) (dijkstraRelax em cur st e)).pq.length
        ≤ (dijkstraRelax em cur st e).pq.length + t.length := ih _
      _ ≤ st.pq.length + 1 + t.length :=
          Nat.add_le_add_right (dijkstraRelax_pq_length em cur st e) _
      _ = st.pq.length + (e :: t).length := by simp [Nat.add_assoc, Nat.add_comm 1]

theorem foldRelax_skip_none (em : Bool) (cur : String) (edges : List Edge) (st : DState)
    (h : mget st.distances cur = none) : edges.foldl (dijkstraRelax em cur) st = st := by
  induction edges with
  | nil => rfl
  | cons e t ih => rw [List.foldl_cons, dijkstraRelax_skip_none em cur st e h, ih]

/-! ## Lemmas: the dijkstra main loop -/

theorem dijkstraLoop_graph (e : String) (em : Bool) :
    ∀ (n : ℕ) (st st' : DState), dijkstraLoop e em n st = some st' →
      st'.graph = st.graph := by
  intro n
  induction n with
  | zero => intro st st' h; simp [dijkstraLoop] at h
  | succ n ih =>
    intro st st' h
    rw [dijkstraLoop] at h
    cases hd : dequeue st.pq with
    | none =>
      rw [hd] at h
      simp only at h
      cases h
      rfl
    | some r =>
      obtain ⟨current, pq'⟩ := r
      rw [hd] at h
      simp only at h
      by_cases hv : current ∈ st.visited
      · rw [if_pos hv] at h
        exact ih { st with pq := pq' } st' h
      · rw [if_neg hv] at h
        by_cases he : current = e
        · rw [if_pos he] at h
          cases h
          rfl
        · rw [if_neg he] at h
          rw [ih _ _ h, foldRelax_graph]

theorem dijkstraLoop_keys (e : String) (em : Bool) :
    ∀ (n : ℕ) (st st' : DState), dijkstraLoop e em n st = some st' →
      mkeys st.previous = mkeys st.distances →
      mkeys st'.distances = mkeys st.distances ∧
        mkeys st'.previous = mkeys st.previous := by
  intro n
  induction n with
  | zero => intro st st' h; simp [dijkstraLoop] at h
  | succ n ih =>
    intro st st' h hk
    rw [dijkstraLoop] at h
    cases hd : dequeue st.pq with
    | none =>
      rw [hd] at h
      simp only at h
      cases h
      exact ⟨rfl, rfl⟩
    | some r =>
      obtain ⟨current, pq'⟩ := r
      rw [hd] at h
      simp only at h
      by_cases hv : current ∈ st.visited
      · rw [if_pos hv] at h
        exact ih { st with pq := pq' } st' h hk
      · rw [if_neg hv] at h
        by_cases he : current = e
        · rw [if_pos he] at h
          cases h
          exact ⟨rfl, rfl⟩
        · rw [if_neg he] at h
          have hk2 : mkeys (((mget st.graph.edges current).getD []).foldl
                (dijkstraRelax em current)
                { st with pq := pq', visited := st.visited ++ [current] }).previous
              = mkeys (((mget st.graph.edges current).getD []).foldl
                (dijkstraRelax em current)
                { st with pq := pq', visited := st.visited ++ [current] }).distances := by
            rw [foldRelax_prevKeys em current ((mget st.graph.edges current).getD [])
              { st with pq := pq', visited := st.visited ++ [current] } hk,
              foldRelax_distKeys]
            exact hk
          have hres := ih _ _ h hk2
          constructor
          · rw [hres.1, foldRelax_distKeys]
          · rw [hres.2, foldRelax_prevKeys em current ((mget st.graph.edges current).getD [])
              { st with pq := pq', visited := st.visited ++ [current] } hk]

theorem dijkstraLoop_isSome (e : String) (em : Bool) :
    ∀ (n : ℕ) (st : DState), dMeasure st < n →
      (dijkstraLoop e em n st).isSome := by
  intro n
  induction n with
  | zero => intro st h; omega
  | succ n ih =>
    intro st hm
    rw [dijkstraLoop]
    cases hd : dequeue st.pq with
    | none => rfl
    | some r =>
      obtain ⟨current, pq'⟩ := r
      have hpq : pq'.length + 1 = st.pq.length := dequeue_length hd
      simp only
      by_cases hv : current ∈ st.visited
      · rw [if_pos hv]
        apply ih
        have : dMeasure { st with pq := pq' } + 1 = dMeasure st := by
          simp only [dMeasure, unvisitedCount]
          omega
        omega
      · rw [if_neg hv]
        by_cases he : current = e
        · rw [if_pos he]; rfl
        · rw [if_neg he]
          apply ih
          set st1 : DState := { st with pq := pq', visited := st.visited ++ [current] }
            with hst1
          set edges := (mget st.graph.edges current).getD [] with hedges
          set st2 := edges.foldl (dijkstraRelax em current) st1 with hst2
          have hE : edges.length ≤ totalEdges st.graph := by
            cases hge : mget st.graph.edges current with
            | none => simp [hedges, hge]
            | some es =>
              have := mget_edges_length_le st.graph current hge
              simpa [hedges, hge] using this
          have hq2 : st2.pq.length ≤ pq'.length + edges.length := by
            have := foldRelax_pq_length em current edges st1
            simpa [hst2, hst1] using this
          have hkeys2 : mkeys st2.distances = mkeys st.distances := by
            rw [hst2, foldRelax_distKeys]
          have hvis2 : st2.visited = st.visited ++ [current] := by
            rw [hst2, foldRelax_visited]
          have hg2 : st2.graph = st.graph := by
            rw [hst2, foldRelax_graph]
          cases hcur : mget st.distances current with
          | none =>
            -- every relaxation skips: the state is unchanged, the queue shrank
            have hskip : st2 = st1 := by
              rw [hst2]
              exact foldRelax_skip_none em current edges st1 hcur
            have hfil : List.filter (fun k => decide (k ∉ st.visited ++ [current]))
                  (mkeys st.distances)
                = List.filter (fun k => decide (k ∉ st.visited)) (mkeys st.distances) := by
              apply List.filter_congr
              intro k hkmem
              have hkc : ¬k = current := by
                intro hkc
                subst hkc
                have hnotin : k ∉ mkeys st.distances := by
                  rwa [mget_eq_none_iff] at hcur
                exact hnotin hkmem
              simp [List.mem_append, hkc]
            have hu1 : unvisitedCount st1 = unvisitedCount st := by
              show (List.filter (fun k => decide (k ∉ st.visited ++ [current]))
                  (mkeys st.distances)).length
                = (List.filter (fun k => decide (k ∉ st.visited)) (mkeys st.distances)).length
              rw [hfil]
            have hd1 : dMeasure st1 + 1 = dMeasure st := by
              show unvisitedCount st1 * (totalEdges st.graph + 1) + pq'.length + 1
                = unvisitedCount st * (totalEdges st.graph + 1) + st.pq.length
              rw [hu1]
              omega
            rw [hskip]
            omega
          | some dc =>
            -- `current` is an unvisited key of `distances`: it gets settled
            have hcm : current ∈ mkeys st.distances :=
              (mget_isSome_iff _ _).mp (by rw [hcur]; rfl)
            have hU : unvisitedCount st2 + 1 ≤ unvisitedCount st := by
              simp only [unvisitedCount, hkeys2, hvis2]
              exact length_filter_not_mem_append_lt _ _ _ hcm hv
            -- arithmetic: the measure strictly decreases
            set E := totalEdges st.graph with hE'
            have hmul : (unvisitedCount st2 + 1) * (E + 1)
                ≤ unvisitedCount st * (E + 1) := Nat.mul_le_mul_right _ hU
            have hmeas2 : dMeasure st2 = unvisitedCount st2 * (E + 1) + st2.pq.length := by
              simp only [dMeasure, hg2]
            have hmeas : dMeasure st = unvisitedCount st * (E + 1) + st.pq.length := by
              simp only [dMeasure]
            have hexp : (unvisitedCount st2 + 1) * (E + 1)
                = unvisitedCount st2 * (E + 1) + (E + 1) := by ring
            omega

/-! ## Lemmas: key sets of the initialisation folds -/

theorem mkeys_mset {α : Type} (m : List (String × α)) (k : String) (v : α) :
    mkeys (mset m k v) = if k ∈ mkeys m then mkeys m else mkeys m ++ [k] := by
  induction m with
  | nil => simp [mset, mkeys]
  | cons p t ih =>
    by_cases hp : p.1 = k
    · simp [mset, mkeys, hp]
    · have : ¬k = p.1 := fun hc => hp hc.symm
      simp only [mset, hp, if_false, mkeys, List.map_cons, List.mem_cons, this, false_or]
      rw [show List.map Prod.fst (mset t k v) = mkeys (mset t k v) from rfl, ih]
      by_cases hm : k ∈ List.map Prod.fst t
      · simp [mkeys, hm]
      · simp [mkeys, hm]

theorem mkeys_foldl_congr {α β : Type} (l : List (String × Node))
    (f : String → α) (f' : String → β) :
    ∀ (m0 : List (String × α)) (m0' : List (String × β)), mkeys m0 = mkeys m0' →
    mkeys (l.foldl (fun m p => mset m p.1 (f p.1)) m0)
      = mkeys (l.foldl (fun m p => mset m p.1 (f' p.1)) m0') := by
  induction l with
  | nil => intro m0 m0' h; exact h
  | cons p t ih =>
    intro m0 m0' h
    rw [List.foldl_cons, List.foldl_cons]
    exact ih _ _ (by rw [mkeys_mset, mkeys_mset, h])

theorem mkeys_initPrevious_eq (g : Graph) (s : String) :
    mkeys (initPrevious g) = mkeys (initDistances g s) :=
  mkeys_foldl_congr g.nodes (fun _ => (none : Option String))
    (fun id => if id = s then (0 : WithTop ℚ) else ⊤) [] [] rfl

theorem mem_mkeys_initDistances (g : Graph) (s k : String) :
    k ∈ mkeys (initDistances g s) ↔ k ∈ mkeys g.nodes := by
  rw [← mget_isSome_iff, mget_initDistances]
  by_cases h : k ∈ mkeys g.nodes <;> simp [h]

/-! ## Lemmas: path reconstruction -/

theorem reconstructPath_single (prev : List (String × Option String)) (e : String)
    (h : reconNext prev e = none) : reconstructPath prev e = some [e] := by
  unfold reconstructPath
  rw [show prev.length + 2 = (prev.length + 1) + 1 from rfl, reconGo, h, reconGo]

/-! ## Lemmas: runs in which every distance stays infinite

If the start id is not a key of the distance map, every stored distance is
`⊤` and no relaxation ever fires; the distance and predecessor maps come out
of the loop untouched. -/

theorem dijkstraRelax_allTop (em : Bool) (cur : String) (st : DState) (e : Edge)
    (h : ∀ k v, mget st.distances k = some v → v = ⊤) :
    dijkstraRelax em cur st e = st := by
  unfold dijkstraRelax
  by_cases hs : dijkstraSkips e em
  · simp [hs]
  · simp only [hs, Bool.false_eq_true, if_false]
    cases hc : mget st.distances cur with
    | none => rfl
    | some dc =>
      cases hn : mget st.distances e.toId with
      | none => rfl
      | some dn =>
        have hdc : dc = ⊤ := h _ _ hc
        have : ¬dc + (dijkstraCost e em : WithTop ℚ) < dn := by
          rw [hdc]
          simp [not_top_lt]
        simp [this]

theorem foldRelax_allTop (em : Bool) (cur : String) (edges : List Edge) (st : DState)
    (h : ∀ k v, mget st.distances k = some v → v = ⊤) :
    edges.foldl (dijkstraRelax em cur) st = st := by
  induction edges with
  | nil => rfl
  | cons e t ih => rw [List.foldl_cons, dijkstraRelax_allTop em cur st e h, ih]

theorem dijkstraLoop_allTop (e : String) (em : Bool) :
    ∀ (n : ℕ) (st st' : DState), dijkstraLoop e em n st = some st' →
      (∀ k v, mget st.distances k = some v → v = ⊤) →
      st'.distances = st.distances ∧ st'.previous = st.previous := by
  intro n
  induction n with
  | zero => intro st st' h; simp [dijkstraLoop] at h
  | succ n ih =>
    intro st st' h htop
    rw [dijkstraLoop] at h
    cases hd : dequeue st.pq with
    | none =>
      rw [hd] at h
      simp only at h
      cases h
      exact ⟨rfl, rfl⟩
    | some r =>
      obtain ⟨current, pq'⟩ := r
      rw [hd] at h
      simp only at h
      by_cases hv : current ∈ st.visited
      · rw [if_pos hv] at h
        exact ih { st with pq := pq' } st' h htop
      · rw [if_neg hv] at h
        by_cases he : current = e
        · rw [if_pos he] at h
          cases h
          exact ⟨rfl, rfl⟩
        · rw [if_neg he] at h
          rw [foldRelax_allTop em current _
            { st with pq := pq', visited := st.visited ++ [current] } htop] at h
          exact ih { st with pq := pq', visited := st.visited ++ [current] } st' h htop

/-! ## Lemmas: the Bellman–Ford relaxation fold -/

theorem bfRelax_graph (st : BFState) (e : String × String × ℚ) :
    (bfRelax st e).graph = st.graph := by
  unfold bfRelax
  cases mget st.distances e.1 with
  | none => rfl
  | some du =>
    cases mget st.distances e.2.1 with
    | none => rfl
    | some dv =>
      by_cases hlt : du + (e.2.2 : WithTop ℚ) < dv <;> simp [hlt]

theorem bfRelax_distKeys (st : BFState) (e : String × String × ℚ) :
    mkeys (bfRelax st e).distances = mkeys st.distances := by
  unfold bfRelax
  cases mget st.distances e.1 with
  | none => rfl
  | some du =>
    cases hn : mget st.distances e.2.1 with
    | none => rfl
    | some dv =>
      by_cases hlt : du + (e.2.2 : WithTop ℚ) < dv
      · simp only [hlt, if_true]
        exact mkeys_mset_of_mem _ _ ((mget_isSome_iff _ _).mp (by rw [hn]; rfl))
      · simp [hlt]

theorem bfRelax_prevKeys (st : BFState) (e : String × String × ℚ)
    (hk : mkeys st.previous = mkeys st.distances) :
    mkeys (bfRelax st e).previous = mkeys st.previous := by
  unfold bfRelax
  cases mget st.distances e.1 with
  | none => rfl
  | some du =>
    cases hn : mget st.distances e.2.1 with
    | none => rfl
    | some dv =>
      by_cases hlt : du + (e.2.2 : WithTop ℚ) < dv
      · simp only [hlt, if_true]
        exact mkeys_mset_of_mem _ _
          (hk ▸ (mget_isSome_iff _ _).mp (by rw [hn]; rfl))
      · simp [hlt]

theorem bfRelax_allTop (st : BFState) (e : String × String × ℚ)
    (h : ∀ k v, mget st.distances k = some v → v = ⊤) : bfRelax st e = st := by
  unfold bfRelax
  cases hc : mget st.distances e.1 with
  | none => rfl
  | some du =>
    cases hn : mget st.distances e.2.1 with
    | none => rfl
    | some dv =>
      have hdu : du = ⊤ := h _ _ hc
      have : ¬du + (e.2.2 : WithTop ℚ) < dv := by
        rw [hdu]
        simp [not_top_lt]
      simp [this]

theorem bfFold_graph (edges : List (String × String × ℚ)) (st : BFState) :
    (edges.foldl bfRelax st).graph = st.graph := by
  induction edges generalizing st with
  | nil => rfl
  | cons e t ih => rw [List.foldl_cons, ih, bfRelax_graph]

theorem bfFold_distKeys (edges : List (String × String × ℚ)) (st : BFState) :
    mkeys (edges.foldl bfRelax st).distances = mkeys st.distances := by
  induction edges generalizing st with
  | nil => rfl
  | cons e t ih => rw [List.foldl_cons, ih, bfRelax_distKeys]

theorem bfFold_prevKeys (edges : List (String × String × ℚ)) (st : BFState)
    (hk : mkeys st.previous = mkeys st.distances) :
    mkeys (edges.foldl bfRelax st).previous = mkeys st.previous := by
  induction edges generalizing st with
  | nil => rfl
  | cons e t ih =>
    rw [List.foldl_cons,
      ih _ (by rw [bfRelax_prevKeys _ _ hk, bfRelax_distKeys, hk]),
      bfRelax_prevKeys _ _ hk]

theorem bfFold_allTop (edges : List (String × String × ℚ)) (st : BFState)
    (h : ∀ k v, mget st.distances k = some v → v = ⊤) :
    edges.foldl bfRelax st = st := by
  induction edges with
  | nil => rfl
  | cons e t ih => rw [List.foldl_cons, bfRelax_allTop st e h, ih]

theorem bfPasses_graph (edges : List (String × String × ℚ)) :
    ∀ (n : ℕ) (st : BFState), (bfPasses edges n st).graph = st.graph
  | 0, _ => rfl
  | n + 1, st => by rw [bfPasses, bfPasses_graph edges n, bfFold_graph]

theorem bfPasses_distKeys (edges : List (String × String × ℚ)) :
    ∀ (n : ℕ) (st : BFState), mkeys (bfPasses edges n st).distances = mkeys st.distances
  | 0, _ => rfl
  | n + 1, st => by rw [bfPasses, bfPasses_distKeys edges n, bfFold_distKeys]

theorem bfPasses_prevKeys (edges : List (String × String × ℚ)) :
    ∀ (n : ℕ) (st : BFState), mkeys st.previous = mkeys st.distances →
      mkeys (bfPasses edges n st).previous = mkeys st.previous
  | 0, _, _ => rfl
  | n + 1, st, hk => by
    rw [bfPasses, bfPasses_prevKeys edges n _
      (by rw [bfFold_prevKeys _ _ hk, bfFold_distKeys, hk]), bfFold_prevKeys _ _ hk]

theorem bfPasses_allTop (edges : List (String × String × ℚ)) :
    ∀ (n : ℕ) (st : BFState), (∀ k v, mget st.distances k = some v → v = ⊤) →
      bfPasses edges n st = st
  | 0, _, _ => rfl
  | n + 1, st, h => by rw [bfPasses, bfFold_allTop edges st h, bfPasses_allTop edges n st h]

/-! ## Behaviour on a missing source or destination id -/

theorem allTop_initDistances (g : Graph) (s : String) (hs : s ∉ mkeys g.nodes) :
    ∀ k v, mget (initDistances g s) k = some v → v = ⊤ := by
  intro k v hv
  rw [mget_initDistances] at hv
  by_cases hk : k ∈ mkeys g.nodes
  · rw [if_pos hk] at hv
    cases hv
    have hks : ¬k = s := fun hc => hs (hc ▸ hk)
    rw [if_neg hks]
  · rw [if_neg hk] at hv
    cases hv

theorem reconNext_none_of_mget_none {prev : List (String × Option String)} {e : String}
    (h : mget prev e = none) : reconNext prev e = none := by
  unfold reconNext
  rw [h]

theorem reconNext_none_of_mget_some_none {prev : List (String × Option String)}
    {e : String} (h : mget prev e = some none) : reconNext prev e = none := by
  unfold reconNext
  rw [h]

theorem jsOrInfinity_top : jsOrInfinity (some ⊤) = ⊤ := by
  simp [jsOrInfinity]

/-- `dijkstra` on a missing source or destination id: infinite distance, and
the path is empty unless the two ids coincide, in which case it is the
singleton (the reconstruction walk finds no predecessor entry and the
`path[0] === startId` test succeeds). -/
theorem dijkstra_missing (g : Graph) (s e : String) (em : Bool)
    (hm : s ∉ mkeys g.nodes ∨ e ∉ mkeys g.nodes) :
    ∃ r, dijkstra g s e em = some r ∧ r.distance = ⊤ ∧
      r.path = (if s = e then [s] else []) := by
  obtain ⟨st', hloop⟩ := Option.isSome_iff_exists.mp
    (dijkstraLoop_isSome e em (dMeasure (dijkstraInit g s) + 1) (dijkstraInit g s)
      (Nat.lt_succ_self _))
  have hsearch : dijkstraSearch g s e em = some st' := hloop
  have hk := dijkstraLoop_keys e em _ _ _ hloop (mkeys_initPrevious_eq g s)
  have hk1 : mkeys st'.distances = mkeys (initDistances g s) := hk.1
  have hk2 : mkeys st'.previous = mkeys (initPrevious g) := hk.2
  by_cases hs : s ∈ mkeys g.nodes
  · have he : e ∉ mkeys g.nodes := hm.resolve_left (fun hc => hc hs)
    have hne : ¬s = e := fun hc => he (hc ▸ hs)
    have hdist : mget st'.distances e = none := by
      rw [mget_eq_none_iff, hk1, mem_mkeys_initDistances]
      exact he
    have hprev : mget st'.previous e = none := by
      rw [mget_eq_none_iff, hk2, mkeys_initPrevious_eq g s, mem_mkeys_initDistances]
      exact he
    have hrecon : reconstructPath st'.previous e = some [e] :=
      reconstructPath_single _ _ (reconNext_none_of_mget_none hprev)
    have hd : dijkstra g s e em = some ⟨[], ⊤, st'.visited⟩ := by
      unfold dijkstra
      rw [hsearch]
      simp only
      rw [hrecon]
      simp only
      rw [if_neg (show ¬(([e] : List String).head? = some s) by
        intro hc
        simp at hc
        exact hne hc.symm), hdist]
      rfl
    exact ⟨_, hd, rfl, by rw [if_neg hne]⟩
  · have htop : ∀ k v, mget (dijkstraInit g s).distances k = some v → v = ⊤ :=
      allTop_initDistances g s hs
    have hunch := dijkstraLoop_allTop e em _ _ _ hloop htop
    have hunch1 : st'.distances = initDistances g s := hunch.1
    have hunch2 : st'.previous = initPrevious g := hunch.2
    have hprev : reconNext st'.previous e = none := by
      rw [hunch2]
      by_cases he : e ∈ mkeys g.nodes
      · exact reconNext_none_of_mget_some_none
          (by rw [mget_initPrevious, if_pos he])
      · exact reconNext_none_of_mget_none
          (by rw [mget_initPrevious, if_neg he])
    have hrecon : reconstructPath st'.previous e = some [e] :=
      reconstructPath_single _ _ hprev
    have hdistval : jsOrInfinity (mget st'.distances e) = ⊤ := by
      rw [hunch1, mget_initDistances]
      by_cases he : e ∈ mkeys g.nodes
      · rw [if_pos he]
        have hes : ¬e = s := fun hc => hs (hc ▸ he)
        rw [if_neg hes]
        exact jsOrInfinity_top
      · rw [if_neg he]
        rfl
    by_cases hse : s = e
    · subst hse
      have hd : dijkstra g s s em = some ⟨[s], ⊤, st'.visited⟩ := by
        unfold dijkstra
        rw [hsearch]
        simp only
        rw [hrecon]
        simp only
        rw [if_pos (show ([s] : List String).head? = some s by rfl), hdistval]
      exact ⟨_, hd, rfl, by simp⟩
    · have hd : dijkstra g s e em = some ⟨[], ⊤, st'.visited⟩ := by
        unfold dijkstra
        rw [hsearch]
        simp only
        rw [hrecon]
        simp only
        rw [if_neg (show ¬(([e] : List String).head? = some s) by
          intro hc
          simp at hc
          exact hse hc.symm), hdistval]
      exact ⟨_, hd, rfl, by rw [if_neg hse]⟩

theorem bellmanCore_graph (g : Graph) (s : String) (em : Bool) :
    (bellmanCore g s em).graph = g := by
  show (bfPasses (allEdgesList g em) ((mkeys g.nodes).dedup.length - 1)
    ⟨g, initDistances g s, initPrevious g⟩).graph = g
  rw [bfPasses_graph]

theorem bellmanCore_distKeys (g : Graph) (s : String) (em : Bool) :
    mkeys (bellmanCore g s em).distances = mkeys (initDistances g s) := by
  show mkeys (bfPasses (allEdgesList g em) ((mkeys g.nodes).dedup.length - 1)
    ⟨g, initDistances g s, initPrevious g⟩).distances = _
  rw [bfPasses_distKeys]

theorem bellmanCore_prevKeys (g : Graph) (s : String) (em : Bool) :
    mkeys (bellmanCore g s em).previous = mkeys (initPrevious g) := by
  show mkeys (bfPasses (allEdgesList g em) ((mkeys g.nodes).dedup.length - 1)
    ⟨g, initDistances g s, initPrevious g⟩).previous = _
  rw [bfPasses_prevKeys _ _ _ (mkeys_initPrevious_eq g s)]

theorem bellmanCore_allTop (g : Graph) (s : String) (em : Bool)
    (hs : s ∉ mkeys g.nodes) :
    (bellmanCore g s em).distances = initDistances g s ∧
      (bellmanCore g s em).previous = initPrevious g := by
  have hpass := bfPasses_allTop (allEdgesList g em) ((mkeys g.nodes).dedup.length - 1)
    ⟨g, initDistances g s, initPrevious g⟩ (allTop_initDistances g s hs)
  constructor
  · show (bfPasses (allEdgesList g em) ((mkeys g.nodes).dedup.length - 1)
      ⟨g, initDistances g s, initPrevious g⟩).distances = _
    rw [hpass]
  · show (bfPasses (allEdgesList g em) ((mkeys g.nodes).dedup.length - 1)
      ⟨g, initDistances g s, initPrevious g⟩).previous = _
    rw [hpass]

/-- `bellmanFord` on a missing source or destination id. -/
theorem bellmanFord_missing (g : Graph) (s e : String) (em : Bool)
    (hm : s ∉ mkeys g.nodes ∨ e ∉ mkeys g.nodes) :
    ∃ r, bellmanFord g s e em = some r ∧ r.distance = ⊤ ∧
      r.path = (if s = e then [s] else []) := by
  by_cases hs : s ∈ mkeys g.nodes
  · have he : e ∉ mkeys g.nodes := hm.resolve_left (fun hc => hc hs)
    have hne : ¬s = e := fun hc => he (hc ▸ hs)
    have hdist : mget (bellmanCore g s em).distances e = none := by
      rw [mget_eq_none_iff, bellmanCore_distKeys, mem_mkeys_initDistances]
      exact he
    have hprev : mget (bellmanCore g s em).previous e = none := by
      rw [mget_eq_none_iff, bellmanCore_prevKeys, mkeys_initPrevious_eq g s,
        mem_mkeys_initDistances]
      exact he
    have hrecon : reconstructPath (bellmanCore g s em).previous e = some [e] :=
      reconstructPath_single _ _ (reconNext_none_of_mget_none hprev)
    have hd : bellmanFord g s e em
        = some ⟨[], ⊤, (bellmanCore g s em).hasNegativeCycle⟩ := by
      unfold bellmanFord
      dsimp only
      rw [hrecon]
      simp only
      rw [if_neg (show ¬(([e] : List String).head? = some s) by
        intro hc
        simp at hc
        exact hne hc.symm), hdist]
      rfl
    exact ⟨_, hd, rfl, by rw [if_neg hne]⟩
  · have hcore := bellmanCore_allTop g s em hs
    have hprev : reconNext (bellmanCore g s em).previous e = none := by
      rw [hcore.2]
      by_cases he : e ∈ mkeys g.nodes
      · exact reconNext_none_of_mget_some_none (by rw [mget_initPrevious, if_pos he])
      · exact reconNext_none_of_mget_none (by rw [mget_initPrevious, if_neg he])
    have hrecon : reconstructPath (bellmanCore g s em).previous e = some [e] :=
      reconstructPath_single _ _ hprev
    have hdistval : jsOrInfinity (mget (bellmanCore g s em).distances e) = ⊤ := by
      rw [hcore.1, mget_initDistances]
      by_cases he : e ∈ mkeys g.nodes
      · rw [if_pos he]
        have hes : ¬e = s := fun hc => hs (hc ▸ he)
        rw [if_neg hes]
        exact jsOrInfinity_top
      · rw [if_neg he]
        rfl
    by_cases hse : s = e
    · subst hse
      have hd : bellmanFord g s s em
          = some ⟨[s], ⊤, (bellmanCore g s em).hasNegativeCycle⟩ := by
        unfold bellmanFord
        dsimp only
        rw [hrecon]
        simp only
        rw [if_pos (show ([s] : List String).head? = some s by rfl), hdistval]
      exact ⟨_, hd, rfl, by simp⟩
    · have hd : bellmanFord g s e em
          = some ⟨[], ⊤, (bellmanCore g s em).hasNegativeCycle⟩ := by
        unfold bellmanFord
        dsimp only
        rw [hrecon]
        simp only
        rw [if_neg (show ¬(([e] : List String).head? = some s) by
          intro hc
          simp at hc
          exact hse hc.symm), hdistval]
      exact ⟨_, hd, rfl, by rw [if_neg hse]⟩

/-- `aStar` on a missing source or destination id: the guard returns the
unreachable result with an empty visited trace. -/
theorem aStarH_missing (g : Graph) (s e : String) (em : Bool)
    (h : String → WithTop ℚ) (hm : s ∉ mkeys g.nodes ∨ e ∉ mkeys g.nodes) :
    aStarH g s e em h = some ⟨[], ⊤, []⟩ := by
  unfold aStarH
  rcases hm with hs | he
  · rw [(mget_eq_none_iff _ _).mpr hs]
  · rw [(mget_eq_none_iff _ _).mpr he]
    cases hs : mget g.nodes s with
    | none => rfl
    | some ns => rfl

/-! ## Lemmas: the aStar relaxation step, fold and main loop

These mirror the corresponding `dijkstra` lemmas; the extra `fScore` map does
not affect any of them. -/

theorem aStarRelax_graph (em : Bool) (h : String → WithTop ℚ) (cur : String)
    (st : AState) (e : Edge) : (aStarRelax em h cur st e).graph = st.graph := by
  unfold aStarRelax
  by_cases hs : aStarSkips e em
  · simp [hs]
  · simp only [hs, Bool.false_eq_true, if_false]
    cases mget st.gScore cur with
    | none => rfl
    | some gc =>
      cases mget st.gScore e.toId with
      | none => rfl
      | some gn =>
        by_cases hlt : gc + (aStarCost e em : WithTop ℚ) < gn <;> simp [hlt]

theorem aStarRelax_visited (em : Bool) (h : String → WithTop ℚ) (cur : String)
    (st : AState) (e : Edge) : (aStarRelax em h cur st e).visited = st.visited := by
  unfold aStarRelax
  by_cases hs : aStarSkips e em
  · simp [hs]
  · simp only [hs, Bool.false_eq_true, if_false]
    cases mget st.gScore cur with
    | none => rfl
    | some gc =>
      cases mget st.gScore e.toId with
      | none => rfl
      | some gn =>
        by_cases hlt : gc + (aStarCost e em : WithTop ℚ) < gn <;> simp [hlt]

theorem aStarRelax_gKeys (em : Bool) (h : String → WithTop ℚ) (cur : String)
    (st : AState) (e : Edge) :
    mkeys (aStarRelax em h cur st e).gScore = mkeys st.gScore := by
  unfold aStarRelax
  by_cases hs : aStarSkips e em
  · simp [hs]
  · simp only [hs, Bool.false_eq_true, if_false]
    cases mget st.gScore cur with
    | none => rfl
    | some gc =>
      cases hn : mget st.gScore e.toId with
      | none => rfl
      | some gn =>
        by_cases hlt : gc + (aStarCost e em : WithTop ℚ) < gn
        · simp only [hlt, if_true]
          exact mkeys_mset_of_mem _ _ ((mget_isSome_iff _ _).mp (by rw [hn]; rfl))
        · simp [hlt]

theorem aStarRelax_prevKeys (em : Bool) (h : String → WithTop ℚ) (cur : String)
    (st : AState) (e : Edge) (hk : mkeys st.previous = mkeys st.gScore) :
    mkeys (aStarRelax em h cur st e).previous = mkeys st.previous := by
  unfold aStarRelax
  by_cases hs : aStarSkips e em
  · simp [hs]
  · simp only [hs, Bool.false_eq_true, if_false]
    cases mget st.gScore cur with
    | none => rfl
    | some gc =>
      cases hn : mget st.gScore e.toId with
      | none => rfl
      | some gn =>
        by_cases hlt : gc + (aStarCost e em : WithTop ℚ) < gn
        · simp only [hlt, if_true]
          exact mkeys_mset_of_mem _ _
            (hk ▸ (mget_isSome_iff _ _).mp (by rw [hn]; rfl))
        · simp [hlt]

theorem aStarRelax_pq_length (em : Bool) (h : String → WithTop ℚ) (cur : String)
    (st : AState) (e : Edge) :
    (aStarRelax em h cur st e).pq.length ≤ st.pq.length + 1 := by
  unfold aStarRelax
  by_cases hs : aStarSkips e em
  · simp [hs]
  · simp only [hs, Bool.false_eq_true, if_false]
    cases mget st.gScore cur with
    | none => exact Nat.le_succ _
    | some gc =>
      cases mget st.gScore e.toId with
      | none => exact Nat.le_succ _
      | some gn =>
        by_cases hlt : gc + (aStarCost e em : WithTop ℚ) < gn
        · simp [hlt, enqueue_length]
        · simp only [hlt, if_false]
          exact Nat.le_succ _

theorem aStarRelax_skip_none (em : Bool) (h : String → WithTop ℚ) (cur : String)
    (st : AState) (e : Edge) (hc : mget st.gScore cur = none) :
    aStarRelax em h cur st e = st := by
  unfold aStarRelax
  by_cases hs : aStarSkips e em
  · simp [hs]
  · simp [hs, hc]

theorem foldARelax_graph (em : Bool) (h : String → WithTop ℚ) (cur : String)
    (edges : List Edge) (st : AState) :
    (edges.foldl (aStarRelax em h cur) st).graph = st.graph := by
  induction edges generalizing st with
  | nil => rfl
  | cons e t ih => rw [List.foldl_cons, ih, aStarRelax_graph]

theorem foldARelax_visited (em : Bool) (h : String → WithTop ℚ) (cur : String)
    (edges : List Edge) (st : AState) :
    (edges.foldl (aStarRelax em h cur) st).visited = st.visited := by
  induction edges generalizing st with
  | nil => rfl
  | cons e t ih => rw [List.foldl_cons, ih, aStarRelax_visited]

theorem foldARelax_gKeys (em : Bool) (h : String → WithTop ℚ) (cur : String)
    (edges : List Edge) (st : AState) :
    mkeys (edges.foldl (aStarRelax em h cur) st).gScore = mkeys st.gScore := by
  induction edges generalizing st with
  | nil => rfl
  | cons e t ih => rw [List.foldl_cons, ih, aStarRelax_gKeys]

theorem foldARelax_prevKeys (em : Bool) (h : String → WithTop ℚ) (cur : String)
    (edges : List Edge) (st : AState) (hk : mkeys st.previous = mkeys st.gScore) :
    mkeys (edges.foldl (aStarRelax em h cur) st).previous = mkeys st.previous := by
  induction edges generalizing st with
  | nil => rfl
  | cons e t ih =>
    rw [List.foldl_cons, ih _ (by rw [aStarRelax_prevKeys _ _ _ _ _ hk,
      aStarRelax_gKeys, hk]), aStarRelax_prevKeys _ _ _ _ _ hk]

theorem foldARelax_pq_length (em : Bool) (h : String → WithTop ℚ) (cur : String)
    (edges : List Edge) (st : AState) :
    (edges.foldl (aStarRelax em h cur) st).pq.length ≤ st.pq.length + edges.length := by
  induction edges generalizing st with
  | nil => simp
  | cons e t ih =>
    rw [List.foldl_cons]
    calc (t.foldl (aStarRelax em h cur) (aStarRelax em h cur st e)).pq.length
        ≤ (aStarRelax em h cur st e).pq.length + t.length := ih _
      _ ≤ st.pq.length + 1 + t.length :=
          Nat.add_le_add_right (aStarRelax_pq_length em h cur st e) _
      _ = st.pq.length + (e :: t).length := by simp [Nat.add_assoc, Nat.add_comm 1]

theorem foldARelax_skip_none (em : Bool) (h : String → WithTop ℚ) (cur : String)
    (edges : List Edge) (st : AState) (hc : mget st.gScore cur = none) :
    edges.foldl (aStarRelax em h cur) st = st := by
  induction edges with
  | nil => rfl
  | cons e t ih => rw [List.foldl_cons, aStarRelax_skip_none em h cur st e hc, ih]

theorem aStarLoop_graph (e : String) (em : Bool) (h : String → WithTop ℚ) :
    ∀ (n : ℕ) (st st' : AState), aStarLoop e em h n st = some st' →
      st'.graph = st.graph := by
  intro n
  induction n with
  | zero => intro st st' hl; simp [aStarLoop] at hl
  | succ n ih =>
    intro st st' hl
    rw [aStarLoop] at hl
    cases hd : dequeue st.pq with
    | none =>
      rw [hd] at hl
      simp only at hl
      cases hl
      rfl
    | some r =>
      obtain ⟨current, pq'⟩ := r
      rw [hd] at hl
      simp only at hl
      by_cases hv : current ∈ st.visited
      · rw [if_pos hv] at hl
        exact ih { st with pq := pq' } st' hl
      · rw [if_neg hv] at hl
        by_cases he : current = e
        · rw [if_pos he] at hl
          cases hl
          rfl
        · rw [if_neg he] at hl
          rw [ih _ _ hl, foldARelax_graph]

theorem aStarLoop_keys (e : String) (em : Bool) (h : String → WithTop ℚ) :
    ∀ (n : ℕ) (st st' : AState), aStarLoop e em h n st = some st' →
      mkeys st.previous = mkeys st.gScore →
      mkeys st'.gScore = mkeys st.gScore ∧
        mkeys st'.previous = mkeys st.previous := by
  intro n
  induction n with
  | zero => intro st st' hl; simp [aStarLoop] at hl
  | succ n ih =>
    intro st st' hl hk
    rw [aStarLoop] at hl
    cases hd : dequeue st.pq with
    | none =>
      rw [hd] at hl
      simp only at hl
      cases hl
      exact ⟨rfl, rfl⟩
    | some r =>
      obtain ⟨current, pq'⟩ := r
      rw [hd] at hl
      simp only at hl
      by_cases hv : current ∈ st.visited
      · rw [if_pos hv] at hl
        exact ih { st with pq := pq' } st' hl hk
      · rw [if_neg hv] at hl
        by_cases he : current = e
        · rw [if_pos he] at hl
          cases hl
          exact ⟨rfl, rfl⟩
        · rw [if_neg he] at hl
          have hk2 : mkeys (((mget st.graph.edges current).getD []).foldl
                (aStarRelax em h current)
                { st with pq := pq', visited := st.visited ++ [current] }).previous
              = mkeys (((mget st.graph.edges current).getD []).foldl
                (aStarRelax em h current)
                { st with pq := pq', visited := st.visited ++ [current] }).gScore := by
            rw [foldARelax_prevKeys em h current ((mget st.graph.edges current).getD [])
              { st with pq := pq', visited := st.visited ++ [current] } hk,
              foldARelax_gKeys]
            exact hk
          have hres := ih _ _ hl hk2
          constructor
          · rw [hres.1, foldARelax_gKeys]
          · rw [hres.2, foldARelax_prevKeys em h current ((mget st.graph.edges current).getD [])
              { st with pq := pq', visited := st.visited ++ [current] } hk]

theorem aStarLoop_isSome (e : String) (em : Bool) (h : String → WithTop ℚ) :
    ∀ (n : ℕ) (st : AState), aMeasure st < n →
      (aStarLoop e em h n st).isSome := by
  intro n
  induction n with
  | zero => intro st hm; omega
  | succ n ih =>
    intro st hm
    rw [aStarLoop]
    cases hd : dequeue st.pq with
    | none => rfl
    | some r =>
      obtain ⟨current, pq'⟩ := r
      have hpq : pq'.length + 1 = st.pq.length := dequeue_length hd
      simp only
      by_cases hv : current ∈ st.visited
      · rw [if_pos hv]
        apply ih
        have : aMeasure { st with pq := pq' } + 1 = aMeasure st := by
          simp only [aMeasure, aUnvisitedCount]
          omega
        omega
      · rw [if_neg hv]
        by_cases he : current = e
        · rw [if_pos he]; rfl
        · rw [if_neg he]
          apply ih
          set st1 : AState := { st with pq := pq', visited := st.visited ++ [current] }
            with hst1
          set edges := (mget st.graph.edges current).getD [] with hedges
          set st2 := edges.foldl (aStarRelax em h current) st1 with hst2
          have hE : edges.length ≤ totalEdges st.graph := by
            cases hge : mget st.graph.edges current with
            | none => simp [hedges, hge]
            | some es =>
              have := mget_edges_length_le st.graph current hge
              simpa [hedges, hge] using this
          have hq2 : st2.pq.length ≤ pq'.length + edges.length := by
            have := foldARelax_pq_length em h current edges st1
            simpa [hst2, hst1] using this
          have hkeys2 : mkeys st2.gScore = mkeys st.gScore := by
            rw [hst2, foldARelax_gKeys]
          have hvis2 : st2.visited = st.visited ++ [current] := by
            rw [hst2, foldARelax_visited]
          have hg2 : st2.graph = st.graph := by
            rw [hst2, foldARelax_graph]
          cases hcur : mget st.gScore current with
          | none =>
            have hskip : st2 = st1 := by
              rw [hst2]
              exact foldARelax_skip_none em h current edges st1 hcur
            have hfil : List.filter (fun k => decide (k ∉ st.visited ++ [current]))
                  (mkeys st.gScore)
                = List.filter (fun k => decide (k ∉ st.visited)) (mkeys st.gScore) := by
              apply List.filter_congr
              intro k hkmem
              have hkc : ¬k = current := by
                intro hkc
                subst hkc
                have hnotin : k ∉ mkeys st.gScore := by
                  rwa [mget_eq_none_iff] at hcur
                exact hnotin hkmem
              simp [List.mem_append, hkc]
            have hu1 : aUnvisitedCount st1 = aUnvisitedCount st := by
              show (List.filter (fun k => decide (k ∉ st.visited ++ [current]))
                  (mkeys st.gScore)).length
                = (List.filter (fun k => decide (k ∉ st.visited)) (mkeys st.gScore)).length
              rw [hfil]
            have hd1 : aMeasure st1 + 1 = aMeasure st := by
              show aUnvisitedCount st1 * (totalEdges st.graph + 1) + pq'.length + 1
                = aUnvisitedCount st * (totalEdges st.graph + 1) + st.pq.length
              rw [hu1]
              omega
            rw [hskip]
            omega
          | some gc =>
            have hcm : current ∈ mkeys st.gScore :=
              (mget_isSome_iff _ _).mp (by rw [hcur]; rfl)
            have hU : aUnvisitedCount st2 + 1 ≤ aUnvisitedCount st := by
              simp only [aUnvisitedCount, hkeys2, hvis2]
              exact length_filter_not_mem_append_lt _ _ _ hcm hv
            set E := totalEdges st.graph with hE'
            have hmul : (aUnvisitedCount st2 + 1) * (E + 1)
                ≤ aUnvisitedCount st * (E + 1) := Nat.mul_le_mul_right _ hU
            have hmeas2 : aMeasure st2 = aUnvisitedCount st2 * (E + 1) + st2.pq.length := by
              simp only [aMeasure, hg2]
            have hmeas : aMeasure st = aUnvisitedCount st * (E + 1) + st.pq.length := by
              simp only [aMeasure]
            have hexp : (aUnvisitedCount st2 + 1) * (E + 1)
                = aUnvisitedCount st2 * (E + 1) + (E + 1) := by ring
            omega

/-! ## Concrete fixtures used by witnesses and counterexamples -/

/-- A plain node at the given coordinates. -/
def mkNode (id : String) (x y : ℚ) : Node := ⟨id, x, y, id, "normal"⟩

/-- The empty graph. -/
def emptyGraph : Graph := ⟨[], []⟩

/-- One node `A`, no edges. -/
def oneNodeGraph : Graph := ⟨[("A", mkNode "A" 0 0)], []⟩

/-! ## Claim C7 -/

/-- C7 (amended): with a source or destination id absent from the node map,
all three algorithms terminate and report infinite distance; the path is
empty, except that `dijkstra` and `bellmanFord` return the singleton `[s]`
when source and destination are the same absent id; `aStar` always returns
the empty path and an empty visited trace. -/
theorem claim_C7 (g : Graph) (s e : String) (em : Bool) (h : String → WithTop ℚ)
    (hm : s ∉ mkeys g.nodes ∨ e ∉ mkeys g.nodes) :
    (∃ r, dijkstra g s e em = some r ∧ r.distance = ⊤ ∧
      r.path = (if s = e then [s] else [])) ∧
    (∃ r, bellmanFord g s e em = some r ∧ r.distance = ⊤ ∧
      r.path = (if s = e then [s] else [])) ∧
    aStarH g s e em h = some ⟨[], ⊤, []⟩ :=
  ⟨dijkstra_missing g s e em hm, bellmanFord_missing g s e em hm,
    aStarH_missing g s e em h hm⟩

/-- C7 witness: source `"Z"` absent from the one-node graph. -/
theorem claim_C7_witness :
    (("Z" : String) ∉ mkeys oneNodeGraph.nodes ∨ ("A" : String) ∉ mkeys oneNodeGraph.nodes) ∧
    ((∃ r, dijkstra oneNodeGraph "Z" "A" false = some r ∧ r.distance = ⊤ ∧
      r.path = (if ("Z" : String) = "A" then ["Z"] else [])) ∧
    (∃ r, bellmanFord oneNodeGraph "Z" "A" false = some r ∧ r.distance = ⊤ ∧
      r.path = (if ("Z" : String) = "A" then ["Z"] else [])) ∧
    aStarH oneNodeGraph "Z" "A" false (fun _ => 0) = some ⟨[], ⊤, []⟩) :=
  ⟨by decide, claim_C7 oneNodeGraph "Z" "A" false (fun _ => 0) (by decide)⟩

/-- C7 counterexample: on the empty graph with the absent id `"X"` as both
source and destination, `dijkstra` returns the singleton path `["X"]` (and
puts `"X"` in the visited trace), not the empty path the claim requires. -/
theorem claim_C7_counterexample :
    dijkstra emptyGraph "X" "X" false = some ⟨["X"], ⊤, ["X"]⟩ ∧
      (["X"] : List String) ≠ ([] : List String) := by
  constructor
  · rfl
  · decide

/-! ## Claim C9 -/

/-- C9: no search mutates its input graph.  The graph is threaded through the
transient search state of each algorithm; every loop, relaxation and pass
leaves it equal to the input. -/
theorem claim_C9 (g : Graph) (s e : String) (em : Bool) (h : String → WithTop ℚ)
    (n : ℕ) :
    (∀ st', dijkstraLoop e em n (dijkstraInit g s) = some st' → st'.graph = g) ∧
    (∀ st', aStarLoop e em h n (aStarInit g s h) = some st' → st'.graph = g) ∧
    (bellmanCore g s em).graph = g := by
  refine ⟨?_, ?_, bellmanCore_graph g s em⟩
  · intro st' hl
    rw [dijkstraLoop_graph e em n _ _ hl]
    rfl
  · intro st' hl
    rw [aStarLoop_graph e em h n _ _ hl]
    rfl

/-- C9 witness: a complete concrete run of each loop leaves the graph
untouched. -/
theorem claim_C9_witness :
    (∃ st', dijkstraLoop "A" false 2 (dijkstraInit oneNodeGraph "A") = some st'
      ∧ st'.graph = oneNodeGraph) ∧
    (∃ st', aStarLoop "A" false (fun _ => 0) 2 (aStarInit oneNodeGraph "A" (fun _ => 0))
      = some st' ∧ st'.graph = oneNodeGraph) ∧
    (bellmanCore oneNodeGraph "A" false).graph = oneNodeGraph := by
  obtain ⟨st1, hst1⟩ := Option.isSome_iff_exists.mp
    (show (dijkstraLoop "A" false 2 (dijkstraInit oneNodeGraph "A")).isSome by
      with_unfolding_all decide)
  obtain ⟨st2, hst2⟩ := Option.isSome_iff_exists.mp
    (show (aStarLoop "A" false (fun _ => 0) 2
        (aStarInit oneNodeGraph "A" (fun _ => 0))).isSome by
      with_unfolding_all decide)
  exact ⟨⟨st1, hst1, (claim_C9 oneNodeGraph "A" "A" false (fun _ => 0) 2).1 st1 hst1⟩,
    ⟨st2, hst2, (claim_C9 oneNodeGraph "A" "A" false (fun _ => 0) 2).2.1 st2 hst2⟩,
    (claim_C9 oneNodeGraph "A" "A" false (fun _ => 0) 2).2.2⟩

/-! ## Claim C10 -/

theorem dijkstraLoop_visited (s e : String) (em : Bool) :
    ∀ (n : ℕ) (st st' : DState), dijkstraLoop e em n st = some st' →
      st.visited.Nodup →
      ((st.visited = [] ∧ ∀ v ∈ st.pq.map Prod.snd, v = s) ∨
        st.visited.head? = some s) →
      st'.visited.Nodup ∧
        ((st'.visited = [] ∧ ∀ v ∈ st'.pq.map Prod.snd, v = s) ∨
          st'.visited.head? = some s) := by
  intro n
  induction n with
  | zero => intro st st' hl; simp [dijkstraLoop] at hl
  | succ n ih =>
    intro st st' hl hnd hdisj
    rw [dijkstraLoop] at hl
    cases hd : dequeue st.pq with
    | none =>
      rw [hd] at hl
      simp only at hl
      cases hl
      exact ⟨hnd, hdisj⟩
    | some r =>
      obtain ⟨current, pq'⟩ := r
      rw [hd] at hl
      simp only at hl
      have hsub := dequeue_mem hd
      by_cases hv : current ∈ st.visited
      · rw [if_pos hv] at hl
        refine ih { st with pq := pq' } st' hl hnd ?_
        rcases hdisj with ⟨hemp, hall⟩ | hhead
        · exact Or.inl ⟨hemp, fun v hvm => hall v (hsub.2 v hvm)⟩
        · exact Or.inr hhead
      · rw [if_neg hv] at hl
        have hnd1 : (st.visited ++ [current]).Nodup := by
          simp [List.nodup_append, hnd, hv]
        have hhead1 : (st.visited ++ [current]).head? = some s := by
          rcases hdisj with ⟨hemp, hall⟩ | hhead
          · have : current = s := hall current hsub.1
            rw [hemp, this]
            rfl
          · cases hvis : st.visited with
            | nil => rw [hvis] at hhead; simp at hhead
            | cons a t =>
              rw [hvis] at hhead
              simp at hhead
              simp [hhead]
        by_cases he : current = e
        · rw [if_pos he] at hl
          cases hl
          exact ⟨hnd1, Or.inr hhead1⟩
        · rw [if_neg he] at hl
          have hv2 : (((mget st.graph.edges current).getD []).foldl
              (dijkstraRelax em current)
              { st with pq := pq', visited := st.visited ++ [current] }).visited
              = st.visited ++ [current] := foldRelax_visited _ _ _ _
          refine ih _ st' hl (by rw [hv2]; exact hnd1) (Or.inr (by rw [hv2]; exact hhead1))

theorem aStarLoop_visited (s e : String) (em : Bool) (h : String → WithTop ℚ) :
    ∀ (n : ℕ) (st st' : AState), aStarLoop e em h n st = some st' →
      st.visited.Nodup →
      ((st.visited = [] ∧ ∀ v ∈ st.pq.map Prod.snd, v = s) ∨
        st.visited.head? = some s) →
      st'.visited.Nodup ∧
        ((st'.visited = [] ∧ ∀ v ∈ st'.pq.map Prod.snd, v = s) ∨
          st'.visited.head? = some s) := by
  intro n
  induction n with
  | zero => intro st st' hl; simp [aStarLoop] at hl
  | succ n ih =>
    intro st st' hl hnd hdisj
    rw [aStarLoop] at hl
    cases hd : dequeue st.pq with
    | none =>
      rw [hd] at hl
      simp only at hl
      cases hl
      exact ⟨hnd, hdisj⟩
    | some r =>
      obtain ⟨current, pq'⟩ := r
      rw [hd] at hl
      simp only at hl
      have hsub := dequeue_mem hd
      by_cases hv : current ∈ st.visited
      · rw [if_pos hv] at hl
        refine ih { st with pq := pq' } st' hl hnd ?_
        rcases hdisj with ⟨hemp, hall⟩ | hhead
        · exact Or.inl ⟨hemp, fun v hvm => hall v (hsub.2 v hvm)⟩
        · exact Or.inr hhead
      · rw [if_neg hv] at hl
        have hnd1 : (st.visited ++ [current]).Nodup := by
          simp [List.nodup_append, hnd, hv]
        have hhead1 : (st.visited ++ [current]).head? = some s := by
          rcases hdisj with ⟨hemp, hall⟩ | hhead
          · have : current = s := hall current hsub.1
            rw [hemp, this]
            rfl
          · cases hvis : st.visited with
            | nil => rw [hvis] at hhead; simp at hhead
            | cons a t =>
              rw [hvis] at hhead
              simp at hhead
              simp [hhead]
        by_cases he : current = e
        · rw [if_pos he] at hl
          cases hl
          exact ⟨hnd1, Or.inr hhead1⟩
        · rw [if_neg he] at hl
          have hv2 : (((mget st.graph.edges current).getD []).foldl
              (aStarRelax em h current)
              { st with pq := pq', visited := st.visited ++ [current] }).visited
              = st.visited ++ [current] := foldARelax_visited _ _ _ _ _
          refine ih _ st' hl (by rw [hv2]; exact hnd1) (Or.inr (by rw [hv2]; exact hhead1))

/-- C10: in every result of `dijkstra` and of `aStar`, the visited trace
contains each id at most once, and a non-empty trace starts with the source
id. -/
theorem claim_C10 (g : Graph) (s e : String) (em : Bool) (h : String → WithTop ℚ) :
    (∀ r, dijkstra g s e em = some r →
      r.visited.Nodup ∧ (r.visited ≠ [] → r.visited.head? = some s)) ∧
    (∀ r, aStarH g s e em h = some r →
      r.visited.Nodup ∧ (r.visited ≠ [] → r.visited.head? = some s)) := by
  constructor
  · intro r hr
    unfold dijkstra at hr
    cases hsearch : dijkstraSearch g s e em with
    | none => rw [hsearch] at hr; simp at hr
    | some st' =>
      rw [hsearch] at hr
      simp only at hr
      cases hrec : reconstructPath st'.previous e with
      | none => rw [hrec] at hr; simp at hr
      | some path =>
        rw [hrec] at hr
        simp only [Option.some_inj] at hr
        subst hr
        have hinv := dijkstraLoop_visited s e em _ _ _ hsearch List.nodup_nil
          (Or.inl ⟨rfl, by
            intro v hv
            rw [show (dijkstraInit g s).pq = [((0 : WithTop ℚ), s)] from rfl] at hv
            simpa using hv⟩)
        refine ⟨hinv.1, fun hne => ?_⟩
        rcases hinv.2 with ⟨hemp, _⟩ | hhead
        · exact absurd hemp hne
        · exact hhead
  · intro r hr
    unfold aStarH at hr
    cases hs : mget g.nodes s with
    | none =>
      rw [hs] at hr
      simp only [Option.some_inj] at hr
      subst hr
      exact ⟨List.nodup_nil, fun hne => absurd rfl hne⟩
    | some ns =>
      cases hes : mget g.nodes e with
      | none =>
        rw [hs, hes] at hr
        simp only [Option.some_inj] at hr
        subst hr
        exact ⟨List.nodup_nil, fun hne => absurd rfl hne⟩
      | some ne' =>
        rw [hs, hes] at hr
        simp only at hr
        cases hsearch : aStarLoop e em h
            (aMeasure (aStarInit g s h) + 1) (aStarInit g s h) with
        | none => rw [hsearch] at hr; simp at hr
        | some st' =>
          rw [hsearch] at hr
          simp only at hr
          cases hrec : reconstructPath st'.previous e with
          | none => rw [hrec] at hr; simp at hr
          | some path =>
            rw [hrec] at hr
            simp only [Option.some_inj] at hr
            subst hr
            have hinv := aStarLoop_visited s e em h _ _ _ hsearch List.nodup_nil
              (Or.inl ⟨rfl, by
                intro v hv
                rw [show (aStarInit g s h).pq
                  = [(((mget (aStarInitF g s h) s).getD ⊤), s)] from rfl] at hv
                simpa using hv⟩)
            refine ⟨hinv.1, fun hne => ?_⟩
            rcases hinv.2 with ⟨hemp, _⟩ | hhead
            · exact absurd hemp hne
            · exact hhead

/-- C10 witness: a concrete run on the one-node graph. -/
theorem claim_C10_witness :
    dijkstra oneNodeGraph "A" "A" false
        = some ⟨["A"], ⊤, ["A"]⟩ ∧
    (∀ r, dijkstra oneNodeGraph "A" "A" false = some r →
      r.visited.Nodup ∧ (r.visited ≠ [] → r.visited.head? = some "A")) := by
  refine ⟨by with_unfolding_all decide, ?_⟩
  exact (claim_C10 oneNodeGraph "A" "A" false (fun _ => 0)).1

/-! ## Claim C8: dangling edge targets -/

theorem dijkstraRelax_dangling (em : Bool) (cur : String) (st : DState) (ed : Edge)
    (h : mget st.distances ed.toId = none) : dijkstraRelax em cur st ed = st := by
  unfold dijkstraRelax
  by_cases hs : dijkstraSkips ed em
  · simp [hs]
  · cases hc : mget st.distances cur with
    | none => simp [hs, hc, h]
    | some dc => simp [hs, hc, h]

theorem aStarRelax_dangling (em : Bool) (h : String → WithTop ℚ) (cur : String)
    (st : AState) (ed : Edge) (hg : mget st.gScore ed.toId = none) :
    aStarRelax em h cur st ed = st := by
  unfold aStarRelax
  by_cases hs : aStarSkips ed em
  · simp [hs]
  · cases hc : mget st.gScore cur with
    | none => simp [hs, hc, hg]
    | some gc => simp [hs, hc, hg]

theorem bfRelax_dangling (st : BFState) (u : String) (X : String) (w : ℚ)
    (h : mget st.distances X = none) : bfRelax st (u, X, w) = st := by
  unfold bfRelax
  cases hc : mget st.distances u with
  | none => simp [hc, h]
  | some du => simp [hc, h]

/-- The relaxation step of `dijkstra` keeps the id `X` out of the queue, the
predecessor values and the distance keys, as long as the settled node is not
`X`. -/
theorem dijkstraRelax_avoid (em : Bool) (cur : String) (st : DState) (ed : Edge)
    (X : String) (hkeys : X ∉ mkeys st.distances) (hcur : ¬cur = X)
    (hprev : ∀ k p, mget st.previous k = some (some p) → ¬p = X)
    (hpq : ∀ v ∈ st.pq.map Prod.snd, ¬v = X) :
    X ∉ mkeys (dijkstraRelax em cur st ed).distances ∧
      (∀ k p, mget (dijkstraRelax em cur st ed).previous k = some (some p) → ¬p = X) ∧
      (∀ v ∈ (dijkstraRelax em cur st ed).pq.map Prod.snd, ¬v = X) := by
  refine ⟨by rw [dijkstraRelax_distKeys]; exact hkeys, ?_⟩
  unfold dijkstraRelax
  by_cases hs : dijkstraSkips ed em
  · simp only [hs, if_true]
    exact ⟨hprev, hpq⟩
  · simp only [hs, Bool.false_eq_true, if_false]
    cases hc : mget st.distances cur with
    | none => exact ⟨hprev, hpq⟩
    | some dc =>
      cases hn : mget st.distances ed.toId with
      | none => exact ⟨hprev, hpq⟩
      | some dn =>
        by_cases hlt : dc + (dijkstraCost ed em : WithTop ℚ) < dn
        · simp only [hlt, if_true]
          have hnbX : ¬ed.toId = X := by
            intro hc2
            rw [hc2] at hn
            rw [(mget_eq_none_iff _ _).mpr hkeys] at hn
            cases hn
          constructor
          · intro k p hkp
            by_cases hk : k = ed.toId
            · rw [hk, mget_mset_self] at hkp
              cases hkp
              exact hcur
            · rw [mget_mset_ne _ _ (fun hc2 => hk hc2.symm)] at hkp
              exact hprev k p hkp
          · intro v hv
            rcases mem_pqValues_enqueue hv with hv' | hv'
            · rw [hv']
              exact hnbX
            · exact hpq v hv'
        · simp only [hlt, if_false]
          exact ⟨hprev, hpq⟩

/-- Fold version of `dijkstraRelax_avoid`. -/
theorem foldRelax_avoid (em : Bool) (cur : String) (edges : List Edge) (st : DState)
    (X : String) (hkeys : X ∉ mkeys st.distances) (hcur : ¬cur = X)
    (hprev : ∀ k p, mget st.previous k = some (some p) → ¬p = X)
    (hpq : ∀ v ∈ st.pq.map Prod.snd, ¬v = X) :
    X ∉ mkeys (edges.foldl (dijkstraRelax em cur) st).distances ∧
      (∀ k p, mget (edges.foldl (dijkstraRelax em cur) st).previous k
        = some (some p) → ¬p = X) ∧
      (∀ v ∈ (edges.foldl (dijkstraRelax em cur) st).pq.map Prod.snd, ¬v = X) := by
  induction edges generalizing st with
  | nil => exact ⟨hkeys, hprev, hpq⟩
  | cons ed t ih =>
    rw [List.foldl_cons]
    have h1 := dijkstraRelax_avoid em cur st ed X hkeys hcur hprev hpq
    exact ih _ h1.1 h1.2.1 h1.2.2

/-- Through the whole `dijkstra` loop, an id `X` outside the distance keys
and the initial queue never enters the visited trace or the predecessor
values. -/
theorem dijkstraLoop_avoid (e : String) (em : Bool) (X : String) :
    ∀ (n : ℕ) (st st' : DState), dijkstraLoop e em n st = some st' →
      X ∉ mkeys st.distances →
      (∀ v ∈ st.pq.map Prod.snd, ¬v = X) →
      (∀ v ∈ st.visited, ¬v = X) →
      (∀ k p, mget st.previous k = some (some p) → ¬p = X) →
      (∀ v ∈ st'.visited, ¬v = X) ∧
        (∀ k p, mget st'.previous k = some (some p) → ¬p = X) := by
  intro n
  induction n with
  | zero => intro st st' hl; simp [dijkstraLoop] at hl
  | succ n ih =>
    intro st st' hl hkeys hpq hvis hprev
    rw [dijkstraLoop] at hl
    cases hd : dequeue st.pq with
    | none =>
      rw [hd] at hl
      simp only at hl
      cases hl
      exact ⟨hvis, hprev⟩
    | some r =>
      obtain ⟨current, pq'⟩ := r
      rw [hd] at hl
      simp only at hl
      have hsub := dequeue_mem hd
      have hcur : ¬current = X := hpq current hsub.1
      have hpq' : ∀ v ∈ pq'.map Prod.snd, ¬v = X :=
        fun v hv => hpq v (hsub.2 v hv)
      by_cases hv : current ∈ st.visited
      · rw [if_pos hv] at hl
        exact ih { st with pq := pq' } st' hl hkeys hpq' hvis hprev
      · rw [if_neg hv] at hl
        have hvis1 : ∀ v ∈ st.visited ++ [current], ¬v = X := by
          intro v hvm
          rcases List.mem_append.mp hvm with h1 | h1
          · exact hvis v h1
          · rw [List.mem_singleton.mp h1]
            exact hcur
        by_cases he : current = e
        · rw [if_pos he] at hl
          cases hl
          exact ⟨hvis1, hprev⟩
        · rw [if_neg he] at hl
          have h2 := foldRelax_avoid em current ((mget st.graph.edges current).getD [])
            { st with pq := pq', visited := st.visited ++ [current] } X hkeys hcur
            hprev hpq'
          exact ih _ st' hl h2.1 h2.2.2 (by
            rw [foldRelax_visited]
            exact hvis1) h2.2.1

/-- Every id on a reconstructed path was either the starting id of the walk
or a predecessor value. -/
theorem reconGo_mem (prev : List (String × Option String)) :
    ∀ (fuel : ℕ) (cur : Option String) (acc res : List String),
      reconGo prev fuel cur acc = some res → ∀ x ∈ res,
        x ∈ acc ∨ cur = some x ∨ ∃ k p, mget prev k = some (some p) ∧ x = p := by
  intro fuel
  induction fuel with
  | zero => intro cur acc res hr; simp [reconGo] at hr
  | succ n ih =>
    intro cur acc res hr x hx
    cases cur with
    | none =>
      have hacc : acc = res := by
        have : (some acc : Option (List String)) = some res := hr
        exact Option.some_inj.mp this
      exact Or.inl (hacc ▸ hx)
    | some c =>
      have hr' : reconGo prev n (reconNext prev c) (c :: acc) = some res := hr
      rcases ih (reconNext prev c) (c :: acc) res hr' x hx with h1 | h1 | h1
      · rcases List.mem_cons.mp h1 with h2 | h2
        · exact Or.inr (Or.inl (by rw [h2]))
        · exact Or.inl h2
      · unfold reconNext at h1
        cases hm : mget prev c with
        | none =>
          rw [hm] at h1
          cases h1
        | some o =>
          cases o with
          | none =>
            rw [hm] at h1
            cases h1
          | some p =>
            rw [hm] at h1
            simp only at h1
            by_cases hp : p = ""
            · rw [if_pos hp] at h1
              cases h1
            · rw [if_neg hp] at h1
              exact Or.inr (Or.inr ⟨c, p, hm, (Option.some_inj.mp h1).symm⟩)
      · exact Or.inr (Or.inr h1)

theorem aStarRelax_avoid (em : Bool) (h : String → WithTop ℚ) (cur : String)
    (st : AState) (ed : Edge) (X : String) (hkeys : X ∉ mkeys st.gScore)
    (hcur : ¬cur = X)
    (hprev : ∀ k p, mget st.previous k = some (some p) → ¬p = X)
    (hpq : ∀ v ∈ st.pq.map Prod.snd, ¬v = X) :
    X ∉ mkeys (aStarRelax em h cur st ed).gScore ∧
      (∀ k p, mget (aStarRelax em h cur st ed).previous k = some (some p) → ¬p = X) ∧
      (∀ v ∈ (aStarRelax em h cur st ed).pq.map Prod.snd, ¬v = X) := by
  refine ⟨by rw [aStarRelax_gKeys]; exact hkeys, ?_⟩
  unfold aStarRelax
  by_cases hs : aStarSkips ed em
  · simp only [hs, if_true]
    exact ⟨hprev, hpq⟩
  · simp only [hs, Bool.false_eq_true, if_false]
    cases hc : mget st.gScore cur with
    | none => exact ⟨hprev, hpq⟩
    | some gc =>
      cases hn : mget st.gScore ed.toId with
      | none => exact ⟨hprev, hpq⟩
      | some gn =>
        by_cases hlt : gc + (aStarCost ed em : WithTop ℚ) < gn
        · simp only [hlt, if_true]
          have hnbX : ¬ed.toId = X := by
            intro hc2
            rw [hc2] at hn
            rw [(mget_eq_none_iff _ _).mpr hkeys] at hn
            cases hn
          constructor
          · intro k p hkp
            by_cases hk : k = ed.toId
            · rw [hk, mget_mset_self] at hkp
              cases hkp
              exact hcur
            · rw [mget_mset_ne _ _ (fun hc2 => hk hc2.symm)] at hkp
              exact hprev k p hkp
          · intro v hv
            rcases mem_pqValues_enqueue hv with hv' | hv'
            · rw [hv']
              exact hnbX
            · exact hpq v hv'
        · simp only [hlt, if_false]
          exact ⟨hprev, hpq⟩

theorem foldARelax_avoid (em : Bool) (h : String → WithTop ℚ) (cur : String)
    (edges : List Edge) (st : AState) (X : String) (hkeys : X ∉ mkeys st.gScore)
    (hcur : ¬cur = X)
    (hprev : ∀ k p, mget st.previous k = some (some p) → ¬p = X)
    (hpq : ∀ v ∈ st.pq.map Prod.snd, ¬v = X) :
    X ∉ mkeys (edges.foldl (aStarRelax em h cur) st).gScore ∧
      (∀ k p, mget (edges.foldl (aStarRelax em h cur) st).previous k
        = some (some p) → ¬p = X) ∧
      (∀ v ∈ (edges.foldl (aStarRelax em h cur) st).pq.map Prod.snd, ¬v = X) := by
  induction edges generalizing st with
  | nil => exact ⟨hkeys, hprev, hpq⟩
  | cons ed t ih =>
    rw [List.foldl_cons]
    have h1 := aStarRelax_avoid em h cur st ed X hkeys hcur hprev hpq
    exact ih _ h1.1 h1.2.1 h1.2.2

theorem aStarLoop_avoid (e : String) (em : Bool) (h : String → WithTop ℚ) (X : String) :
    ∀ (n : ℕ) (st st' : AState), aStarLoop e em h n st = some st' →
      X ∉ mkeys st.gScore →
      (∀ v ∈ st.pq.map Prod.snd, ¬v = X) →
      (∀ v ∈ st.visited, ¬v = X) →
      (∀ k p, mget st.previous k = some (some p) → ¬p = X) →
      (∀ v ∈ st'.visited, ¬v = X) ∧
        (∀ k p, mget st'.previous k = some (some p) → ¬p = X) := by
  intro n
  induction n with
  | zero => intro st st' hl; simp [aStarLoop] at hl
  | succ n ih =>
    intro st st' hl hkeys hpq hvis hprev
    rw [aStarLoop] at hl
    cases hd : dequeue st.pq with
    | none =>
      rw [hd] at hl
      simp only at hl
      cases hl
      exact ⟨hvis, hprev⟩
    | some r =>
      obtain ⟨current, pq'⟩ := r
      rw [hd] at hl
      simp only at hl
      have hsub := dequeue_mem hd
      have hcur : ¬current = X := hpq current hsub.1
      have hpq' : ∀ v ∈ pq'.map Prod.snd, ¬v = X :=
        fun v hv => hpq v (hsub.2 v hv)
      by_cases hv : current ∈ st.visited
      · rw [if_pos hv] at hl
        exact ih { st with pq := pq' } st' hl hkeys hpq' hvis hprev
      · rw [if_neg hv] at hl
        have hvis1 : ∀ v ∈ st.visited ++ [current], ¬v = X := by
          intro v hvm
          rcases List.mem_append.mp hvm with h1 | h1
          · exact hvis v h1
          · rw [List.mem_singleton.mp h1]
            exact hcur
        by_cases he : current = e
        · rw [if_pos he] at hl
          cases hl
          exact ⟨hvis1, hprev⟩
        · rw [if_neg he] at hl
          have h2 := foldARelax_avoid em h current ((mget st.graph.edges current).getD [])
            { st with pq := pq', visited := st.visited ++ [current] } X hkeys hcur
            hprev hpq'
          exact ih _ st' hl h2.1 h2.2.2 (by
            rw [foldARelax_visited]
            exact hvis1) h2.2.1

theorem bfRelax_avoid (st : BFState) (e : String × String × ℚ) (X : String)
    (hkeys : X ∉ mkeys st.distances)
    (hprev : ∀ k p, mget st.previous k = some (some p) → ¬p = X) :
    X ∉ mkeys (bfRelax st e).distances ∧
      (∀ k p, mget (bfRelax st e).previous k = some (some p) → ¬p = X) := by
  refine ⟨by rw [bfRelax_distKeys]; exact hkeys, ?_⟩
  unfold bfRelax
  cases hc : mget st.distances e.1 with
  | none => exact hprev
  | some du =>
    cases hn : mget st.distances e.2.1 with
    | none => exact hprev
    | some dv =>
      by_cases hlt : du + (e.2.2 : WithTop ℚ) < dv
      · simp only [hlt, if_true]
        have hfromX : ¬e.1 = X := by
          intro hc2
          rw [hc2] at hc
          rw [(mget_eq_none_iff _ _).mpr hkeys] at hc
          cases hc
        intro k p hkp
        by_cases hk : k = e.2.1
        · rw [hk, mget_mset_self] at hkp
          cases hkp
          exact hfromX
        · rw [mget_mset_ne _ _ (fun h2 => hk h2.symm)] at hkp
          exact hprev k p hkp
      · simp only [hlt, if_false]
        exact hprev

theorem bfFold_avoid (edges : List (String × String × ℚ)) (st : BFState) (X : String)
    (hkeys : X ∉ mkeys st.distances)
    (hprev : ∀ k p, mget st.previous k = some (some p) → ¬p = X) :
    X ∉ mkeys (edges.foldl bfRelax st).distances ∧
      (∀ k p, mget (edges.foldl bfRelax st).previous k = some (some p) → ¬p = X) := by
  induction edges generalizing st with
  | nil => exact ⟨hkeys, hprev⟩
  | cons e t ih =>
    rw [List.foldl_cons]
    have h1 := bfRelax_avoid st e X hkeys hprev
    exact ih _ h1.1 h1.2

theorem bfPasses_avoid (edges : List (String × String × ℚ)) :
    ∀ (n : ℕ) (st : BFState), X ∉ mkeys st.distances →
      (∀ k p, mget st.previous k = some (some p) → ¬p = X) →
      X ∉ mkeys (bfPasses edges n st).distances ∧
        (∀ k p, mget (bfPasses edges n st).previous k = some (some p) → ¬p = X)
  | 0, st, hkeys, hprev => ⟨hkeys, hprev⟩
  | n + 1, st, hkeys, hprev => by
    rw [bfPasses]
    have h1 := bfFold_avoid edges st X hkeys hprev
    exact bfPasses_avoid edges n _ h1.1 h1.2

/-- Shape of any `some` result of `dijkstra`. -/
theorem dijkstra_result_decomp (g : Graph) (s e : String) (em : Bool)
    (r : SearchResult) (hr : dijkstra g s e em = some r) :
    ∃ st' path, dijkstraSearch g s e em = some st' ∧
      reconstructPath st'.previous e = some path ∧
      r = ⟨if path.head? = some s then path else [],
           jsOrInfinity (mget st'.distances e), st'.visited⟩ := by
  unfold dijkstra at hr
  cases hsearch : dijkstraSearch g s e em with
  | none => rw [hsearch] at hr; simp at hr
  | some st' =>
    rw [hsearch] at hr
    simp only at hr
    cases hrec : reconstructPath st'.previous e with
    | none => rw [hrec] at hr; simp at hr
    | some path =>
      rw [hrec] at hr
      simp only [Option.some_inj] at hr
      exact ⟨st', path, rfl, hrec, hr.symm⟩

/-- Shape of any `some` result of `aStar`. -/
theorem aStarH_result_decomp (g : Graph) (s e : String) (em : Bool)
    (h : String → WithTop ℚ) (r : SearchResult) (hr : aStarH g s e em h = some r) :
    (r = ⟨[], ⊤, []⟩ ∧ (mget g.nodes s = none ∨ mget g.nodes e = none)) ∨
    (∃ st' path, aStarLoop e em h (aMeasure (aStarInit g s h) + 1)
        (aStarInit g s h) = some st' ∧
      reconstructPath st'.previous e = some path ∧
      r = ⟨if path.head? = some s then path else [],
           jsOrInfinity (mget st'.gScore e), st'.visited⟩) := by
  unfold aStarH at hr
  cases hs : mget g.nodes s with
  | none =>
    rw [hs] at hr
    simp only [Option.some_inj] at hr
    exact Or.inl ⟨hr.symm, Or.inl rfl⟩
  | some ns =>
    cases hes : mget g.nodes e with
    | none =>
      rw [hs, hes] at hr
      simp only [Option.some_inj] at hr
      exact Or.inl ⟨hr.symm, Or.inr rfl⟩
    | some ne' =>
      rw [hs, hes] at hr
      simp only at hr
      cases hsearch : aStarLoop e em h (aMeasure (aStarInit g s h) + 1)
          (aStarInit g s h) with
      | none => rw [hsearch] at hr; simp at hr
      | some st' =>
        rw [hsearch] at hr
        simp only at hr
        cases hrec : reconstructPath st'.previous e with
        | none => rw [hrec] at hr; simp at hr
        | some path =>
          rw [hrec] at hr
          simp only [Option.some_inj] at hr
          exact Or.inr ⟨st', path, rfl, hrec, hr.symm⟩

/-- Shape of any `some` result of `bellmanFord`. -/
theorem bellmanFord_result_decomp (g : Graph) (s e : String) (em : Bool)
    (r : BFResult) (hr : bellmanFord g s e em = some r) :
    ∃ path, reconstructPath (bellmanCore g s em).previous e = some path ∧
      r = ⟨if path.head? = some s then path else [],
           jsOrInfinity (mget (bellmanCore g s em).distances e),
           (bellmanCore g s em).hasNegativeCycle⟩ := by
  unfold bellmanFord at hr
  dsimp only at hr
  cases hrec : reconstructPath (bellmanCore g s em).previous e with
  | none => rw [hrec] at hr; simp at hr
  | some path =>
    rw [hrec] at hr
    simp only [Option.some_inj] at hr
    exact ⟨path, rfl, hr.symm⟩

/-- Elements of a reconstructed path avoid `X` when the walk starts off `X`
and no predecessor value is `X`. -/
theorem reconstructPath_avoid (prev : List (String × Option String)) (e X : String)
    (path : List String) (hrec : reconstructPath prev e = some path)
    (hprevX : ∀ k p, mget prev k = some (some p) → ¬p = X) (heX : ¬e = X) :
    ∀ x ∈ path, ¬x = X := by
  intro x hx
  rcases reconGo_mem prev _ _ _ _ hrec x hx with h1 | h1 | h1
  · cases h1
  · have : e = x := Option.some_inj.mp h1
    rw [← this]
    exact heX
  · obtain ⟨k, p, hk, hxp⟩ := h1
    rw [hxp]
    exact hprevX k p hk

theorem initPrevious_avoid (g : Graph) (X : String) :
    ∀ k p, mget (initPrevious g) k = some (some p) → ¬p = X := by
  intro k p hkp
  rw [mget_initPrevious] at hkp
  by_cases hk : k ∈ mkeys g.nodes
  · rw [if_pos hk] at hkp
    simp at hkp
  · rw [if_neg hk] at hkp
    cases hkp

/-- C8 (amended): let `X` be an id absent from the node map (the target of a
dangling edge).  Every relaxation of an edge pointing at `X` leaves the
search state unchanged in all three algorithms; provided `X` is not the
queried source id, `X` never appears in the returned path or visited trace;
and the search phases of `dijkstra` and `aStar` run to completion. -/
theorem claim_C8 (g : Graph) (s e X : String) (em : Bool) (h : String → WithTop ℚ)
    (ed : Edge) (hX : X ∉ mkeys g.nodes) (hed : ed.toId = X) (hs : ¬s = X) :
    (∀ (cur : String) (st : DState), X ∉ mkeys st.distances →
      dijkstraRelax em cur st ed = st) ∧
    (∀ (cur : String) (st : AState), X ∉ mkeys st.gScore →
      aStarRelax em h cur st ed = st) ∧
    (∀ (u : String) (w : ℚ) (st : BFState), X ∉ mkeys st.distances →
      bfRelax st (u, X, w) = st) ∧
    (∀ r, dijkstra g s e em = some r →
      (∀ x ∈ r.visited, ¬x = X) ∧ (∀ x ∈ r.path, ¬x = X)) ∧
    (∀ r, aStarH g s e em h = some r →
      (∀ x ∈ r.visited, ¬x = X) ∧ (∀ x ∈ r.path, ¬x = X)) ∧
    (∀ r, bellmanFord g s e em = some r → (∀ x ∈ r.path, ¬x = X)) ∧
    (dijkstraSearch g s e em).isSome ∧
    (aStarLoop e em h (aMeasure (aStarInit g s h) + 1) (aStarInit g s h)).isSome := by
  have hkeys0 : X ∉ mkeys (initDistances g s) := by
    rw [mem_mkeys_initDistances]
    exact hX
  refine ⟨?_, ?_, ?_, ?_, ?_, ?_, ?_, ?_⟩
  · intro cur st hk
    exact dijkstraRelax_dangling em cur st ed
      (by rw [hed, (mget_eq_none_iff _ _).mpr hk])
  · intro cur st hk
    exact aStarRelax_dangling em h cur st ed
      (by rw [hed, (mget_eq_none_iff _ _).mpr hk])
  · intro u w st hk
    exact bfRelax_dangling st u X w ((mget_eq_none_iff _ _).mpr hk)
  · -- dijkstra
    intro r hr
    obtain ⟨st', path, hsearch, hrec, hre⟩ := dijkstra_result_decomp g s e em r hr
    have havoid := dijkstraLoop_avoid e em X _ _ _ hsearch hkeys0
      (by
        intro v hv
        rw [show (dijkstraInit g s).pq = [((0 : WithTop ℚ), s)] from rfl] at hv
        simp at hv
        rw [hv]
        exact hs)
      (by intro v hv; cases hv)
      (initPrevious_avoid g X)
    have hkinv := dijkstraLoop_keys e em _ _ _ hsearch (mkeys_initPrevious_eq g s)
    refine ⟨by rw [hre]; exact havoid.1, ?_⟩
    rw [hre]
    by_cases heX : e = X
    · -- destination is the dangling id: the walk stops immediately
      have hpx : mget st'.previous e = none := by
        rw [mget_eq_none_iff]
        have : mkeys st'.previous = mkeys (initPrevious g) := hkinv.2
        rw [this, mkeys_initPrevious_eq g s]
        intro hc
        rw [mem_mkeys_initDistances] at hc
        rw [heX] at hc
        exact hX hc
      have : reconstructPath st'.previous e = some [e] :=
        reconstructPath_single _ _ (reconNext_none_of_mget_none hpx)
      rw [this] at hrec
      have hpe : path = [e] := (Option.some_inj.mp hrec).symm
      subst hpe
      rw [if_neg (by
        intro hc
        simp at hc
        apply hs
        rw [← hc]
        exact heX)]
      intro x hx
      cases hx
    · intro x hx
      rw [show (if path.head? = some s then path else []) = SearchResult.path
          ⟨if path.head? = some s then path else [], jsOrInfinity (mget st'.distances e),
            st'.visited⟩ from rfl] at hx
      by_cases hhead : path.head? = some s
      · rw [show SearchResult.path ⟨if path.head? = some s then path else [],
            jsOrInfinity (mget st'.distances e), st'.visited⟩
            = if path.head? = some s then path else [] from rfl, if_pos hhead] at hx
        exact reconstructPath_avoid st'.previous e X path hrec havoid.2 heX x hx
      · rw [show SearchResult.path ⟨if path.head? = some s then path else [],
            jsOrInfinity (mget st'.distances e), st'.visited⟩
            = if path.head? = some s then path else [] from rfl, if_neg hhead] at hx
        cases hx
  · -- aStar
    intro r hr
    rcases aStarH_result_decomp g s e em h r hr with ⟨hre, _⟩ | ⟨st', path, hsearch, hrec, hre⟩
    · rw [hre]
      constructor
      · intro x hx
        cases hx
      · intro x hx
        cases hx
    · have havoid := aStarLoop_avoid e em h X _ _ _ hsearch hkeys0
        (by
          intro v hv
          rw [show (aStarInit g s h).pq
            = [(((mget (aStarInitF g s h) s).getD ⊤), s)] from rfl] at hv
          simp at hv
          rw [hv]
          exact hs)
        (by intro v hv; cases hv)
        (initPrevious_avoid g X)
      have hkinv := aStarLoop_keys e em h _ _ _ hsearch (mkeys_initPrevious_eq g s)
      refine ⟨by rw [hre]; exact havoid.1, ?_⟩
      rw [hre]
      by_cases heX : e = X
      · have hpx : mget st'.previous e = none := by
          rw [mget_eq_none_iff]
          have : mkeys st'.previous = mkeys (initPrevious g) := hkinv.2
          rw [this, mkeys_initPrevious_eq g s]
          intro hc
          rw [mem_mkeys_initDistances] at hc
          rw [heX] at hc
          exact hX hc
        have : reconstructPath st'.previous e = some [e] :=
          reconstructPath_single _ _ (reconNext_none_of_mget_none hpx)
        rw [this] at hrec
        have hpe : path = [e] := (Option.some_inj.mp hrec).symm
        subst hpe
        rw [if_neg (by
          intro hc
          simp at hc
          apply hs
          rw [← hc]
          exact heX)]
        intro x hx
        cases hx
      · intro x hx
        by_cases hhead : path.head? = some s
        · rw [show SearchResult.path ⟨if path.head? = some s then path else [],
              jsOrInfinity (mget st'.gScore e), st'.visited⟩
              = if path.head? = some s then path else [] from rfl, if_pos hhead] at hx
          exact reconstructPath_avoid st'.previous e X path hrec havoid.2 heX x hx
        · rw [show SearchResult.path ⟨if path.head? = some s then path else [],
              jsOrInfinity (mget st'.gScore e), st'.visited⟩
              = if path.head? = some s then path else [] from rfl, if_neg hhead] at hx
          cases hx
  · -- bellmanFord
    intro r hr
    obtain ⟨path, hrec, hre⟩ := bellmanFord_result_decomp g s e em r hr
    have havoid := bfPasses_avoid (allEdgesList g em)
      ((mkeys g.nodes).dedup.length - 1) ⟨g, initDistances g s, initPrevious g⟩
      hkeys0 (initPrevious_avoid g X)
    have hprevX : ∀ k p, mget (bellmanCore g s em).previous k = some (some p)
        → ¬p = X := havoid.2
    rw [hre]
    by_cases heX : e = X
    · have hpx : mget (bellmanCore g s em).previous e = none := by
        rw [mget_eq_none_iff, bellmanCore_prevKeys, mkeys_initPrevious_eq g s]
        intro hc
        rw [mem_mkeys_initDistances] at hc
        rw [heX] at hc
        exact hX hc
      have : reconstructPath (bellmanCore g s em).previous e = some [e] :=
        reconstructPath_single _ _ (reconNext_none_of_mget_none hpx)
      rw [this] at hrec
      have hpe : path = [e] := (Option.some_inj.mp hrec).symm
      subst hpe
      rw [if_neg (by
        intro hc
        simp at hc
        apply hs
        rw [← hc]
        exact heX)]
      intro x hx
      cases hx
    · intro x hx
      by_cases hhead : path.head? = some s
      · rw [show BFResult.path ⟨if path.head? = some s then path else [],
            jsOrInfinity (mget (bellmanCore g s em).distances e),
            (bellmanCore g s em).hasNegativeCycle⟩
            = if path.head? = some s then path else [] from rfl, if_pos hhead] at hx
        exact reconstructPath_avoid (bellmanCore g s em).previous e X path hrec
          hprevX heX x hx
      · rw [show BFResult.path ⟨if path.head? = some s then path else [],
            jsOrInfinity (mget (bellmanCore g s em).distances e),
            (bellmanCore g s em).hasNegativeCycle⟩
            = if path.head? = some s then path else [] from rfl, if_neg hhead] at hx
        cases hx
  · exact dijkstraLoop_isSome e em _ _ (Nat.lt_succ_self _)
  · exact aStarLoop_isSome e em h _ _ (Nat.lt_succ_self _)

/-- One real node `A` with a dangling edge `A → X`. -/
def danglingGraph : Graph :=
  ⟨[("A", mkNode "A" 0 0)], [("A", [⟨"A", "X", 1, 0, false⟩])]⟩

/-- C8 counterexample: `danglingGraph` contains the edge `A → X` whose target
`X` is absent from the node map; searching with source (and destination) `X`
returns `X` both in the visited trace and in the path, refuting "the dangling
id never appears in the returned path or visited trace". -/
theorem claim_C8_counterexample :
    ("X" : String) ∉ mkeys danglingGraph.nodes ∧
    (∃ ed ∈ (mget danglingGraph.edges "A").getD [], ed.toId = "X") ∧
    dijkstra danglingGraph "X" "X" false = some ⟨["X"], ⊤, ["X"]⟩ ∧
    ("X" : String) ∈ (["X"] : List String) := by
  refine ⟨by decide, ⟨⟨"A", "X", 1, 0, false⟩, by decide, rfl⟩, by with_unfolding_all decide, by decide⟩

/-- C8 witness: the dangling edge of `danglingGraph`, with source `A`. -/
theorem claim_C8_witness :
    (("X" : String) ∉ mkeys danglingGraph.nodes ∧
      (Edge.mk "A" "X" 1 0 false).toId = "X" ∧ ¬("A" : String) = "X") ∧
    ((∀ r, dijkstra danglingGraph "A" "X" false = some r →
      (∀ x ∈ r.visited, ¬x = "X") ∧ (∀ x ∈ r.path, ¬x = "X")) ∧
     (dijkstraSearch danglingGraph "A" "X" false).isSome) := by
  have hmain := claim_C8 danglingGraph "A" "X" "X" false (fun _ => 0)
    ⟨"A", "X", 1, 0, false⟩ (by decide) rfl (by decide)
  exact ⟨⟨by decide, rfl, by decide⟩, hmain.2.2.2.1, hmain.2.2.2.2.2.2.1⟩

/-! ## Claim C1 -/

/-- Two nodes, one traversable zero-weight edge `A → B`. -/
def zeroWeightGraph : Graph :=
  ⟨[("A", mkNode "A" 0 0), ("B", mkNode "B" 1 0)],
   [("A", [⟨"A", "B", 0, 0, false⟩])]⟩

/-- C1, failing input: all effective weights are non-negative, both endpoints
are in the node map, and the true minimum accumulated effective weight from
`A` to `B` is `0` (the zero-weight edge), yet `dijkstra` reports the infinite
sentinel: `distances.get(endId) || Infinity` coerces the stored `0` (falsy in
JavaScript) to `Infinity`, while at the same time returning the non-empty
path `[A, B]`. -/
theorem claim_C1 :
    dijkstra zeroWeightGraph "A" "B" false = some ⟨["A", "B"], ⊤, ["A", "B"]⟩ ∧
    pathWeight zeroWeightGraph false ["A", "B"] = some 0 ∧
    (⊤ : WithTop ℚ) ≠ ((0 : ℚ) : WithTop ℚ) := by
  refine ⟨by with_unfolding_all decide, by with_unfolding_all decide, by decide⟩

/-! ## Claim C3 -/

/-- The Euclidean heuristic of `aStar` on `oneNodeGraph` with destination
`A`: zero at `A`, infinite elsewhere. -/
def oneNodeHeuristic : String → WithTop ℚ :=
  fun id => if id = "A" then 0 else ⊤

theorem oneNodeHeuristic_isEuclid :
    IsEuclidHeuristic oneNodeGraph "A" oneNodeHeuristic := by
  refine ⟨mkNode "A" 0 0, rfl, ?_⟩
  intro id
  by_cases hid : ("A" : String) = id
  · subst hid
    show ∃ q : ℚ, 0 ≤ q ∧ q * q = _ ∧ oneNodeHeuristic "A" = (q : WithTop ℚ)
    exact ⟨0, le_refl 0, by norm_num [mkNode], rfl⟩
  · have : mget oneNodeGraph.nodes id = none := by
      simp [oneNodeGraph, mget, hid]
    rw [show (match mget oneNodeGraph.nodes id with
        | none => oneNodeHeuristic id = ⊤
        | some n => ∃ q : ℚ, 0 ≤ q ∧
            q * q = (n.x - (mkNode "A" 0 0).x) * (n.x - (mkNode "A" 0 0).x) +
              (n.y - (mkNode "A" 0 0).y) * (n.y - (mkNode "A" 0 0).y) ∧
            oneNodeHeuristic id = (q : WithTop ℚ))
      = (oneNodeHeuristic id = ⊤) by rw [this]]
    have hid' : ¬id = "A" := fun hc => hid hc.symm
    simp [oneNodeHeuristic, hid']

/-- C3, failing input: querying source = destination = `A` on a graph
containing `A`.  All three algorithms return the single-element path `[A]`
as the claim demands, but the reported distance is the infinite sentinel,
not `0`: the stored distance `0` is falsy in JavaScript and
`distances.get(endId) || Infinity` (resp. `gScore.get(endId) || Infinity`)
replaces it by `Infinity`. -/
theorem claim_C3 :
    dijkstra oneNodeGraph "A" "A" false = some ⟨["A"], ⊤, ["A"]⟩ ∧
    aStarH oneNodeGraph "A" "A" false oneNodeHeuristic = some ⟨["A"], ⊤, ["A"]⟩ ∧
    bellmanFord oneNodeGraph "A" "A" false = some ⟨["A"], ⊤, false⟩ ∧
    (⊤ : WithTop ℚ) ≠ ((0 : ℚ) : WithTop ℚ) := by
  refine ⟨by with_unfolding_all decide, by with_unfolding_all decide,
    by with_unfolding_all decide, by decide⟩

/-! ## Claim C4 -/

/-- C4: the three algorithms' inline skip tests and effective-weight
computations all coincide with the specification's single cost evaluator
(§4.2): an edge is excluded iff `blocked` holds and the emergency flag is
off; the contributed weight is `edge.weight` in emergency mode and
`edge.weight * (1 + edge.traffic * 2)` otherwise. -/
theorem claim_C4 (e : Edge) (em : Bool) :
    dijkstraSkips e em = !specTraversable e em ∧
    aStarSkips e em = !specTraversable e em ∧
    bellmanKeeps e em = specTraversable e em ∧
    dijkstraCost e em = specEffectiveWeight e em ∧
    aStarCost e em = specEffectiveWeight e em ∧
    bellmanCost e em = specEffectiveWeight e em ∧
    specEffectiveWeight e true = e.weight ∧
    specTraversable e true = true ∧
    specEffectiveWeight e false = e.weight * (1 + e.traffic * 2) ∧
    specTraversable e false = !e.blocked := by
  cases em <;> cases hb : e.blocked <;>
    simp [dijkstraSkips, aStarSkips, bellmanKeeps, specTraversable, dijkstraCost,
      aStarCost, bellmanCost, specEffectiveWeight, hb]

/-! ## Claim C5 -/

/-- Three nodes in a negative cycle: `A → B`, `B → C`, `C → A`, weight `-5`
each, no blocking, no traffic. -/
def negCycleGraph : Graph :=
  ⟨[("A", mkNode "A" 0 0), ("B", mkNode "B" 1 0), ("C", mkNode "C" 2 0)],
   [("A", [⟨"A", "B", -5, 0, false⟩]),
    ("B", [⟨"B", "C", -5, 0, false⟩]),
    ("C", [⟨"C", "A", -5, 0, false⟩])]⟩

/-- After the passes on the negative 3-cycle, the predecessor map is the
cycle `A ← C ← B ← A`; the reconstruction walk never reaches `null`. -/
theorem negCycle_recon_stuck :
    ∀ (fuel : ℕ) (cur : String) (acc : List String),
      (cur = "A" ∨ cur = "B" ∨ cur = "C") →
      reconGo [("A", some "C"), ("B", some "A"), ("C", some "B")]
        fuel (some cur) acc = none := by
  intro fuel
  induction fuel with
  | zero => intro cur acc hc; rfl
  | succ n ih =>
    intro cur acc hc
    rcases hc with h | h | h <;> subst h
    · show reconGo [("A", some "C"), ("B", some "A"), ("C", some "B")] n
        (reconNext [("A", some "C"), ("B", some "A"), ("C", some "B")] "A")
        ("A" :: acc) = none
      rw [show reconNext [("A", some "C"), ("B", some "A"), ("C", some "B")] "A"
        = some "C" from rfl]
      exact ih "C" _ (Or.inr (Or.inr rfl))
    · show reconGo [("A", some "C"), ("B", some "A"), ("C", some "B")] n
        (reconNext [("A", some "C"), ("B", some "A"), ("C", some "B")] "B")
        ("B" :: acc) = none
      rw [show reconNext [("A", some "C"), ("B", some "A"), ("C", some "B")] "B"
        = some "A" from rfl]
      exact ih "A" _ (Or.inl rfl)
    · show reconGo [("A", some "C"), ("B", some "A"), ("C", some "B")] n
        (reconNext [("A", some "C"), ("B", some "A"), ("C", some "B")] "C")
        ("C" :: acc) = none
      rw [show reconNext [("A", some "C"), ("B", some "A"), ("C", some "B")] "C"
        = some "B" from rfl]
      exact ih "B" _ (Or.inr (Or.inl rfl))

/-- C5, failing input: on the negative 3-cycle with source `A`, the detection
logic does set the flag (first conjunct: the iff the claim states holds at
this input, the extra pass finds a still-relaxing edge), but the call itself
never returns for any of the graph's nodes as destination: the predecessor
map is cyclic and the reconstruction `while (current !== null)` loop runs
forever (second conjunct: no amount of fuel finishes the walk; third
conjunct: the embedded call reports divergence). -/
theorem claim_C5 :
    (bellmanCore negCycleGraph "A" false).hasNegativeCycle = true ∧
    (∀ (fuel : ℕ) (acc : List String),
      reconGo (bellmanCore negCycleGraph "A" false).previous fuel (some "A") acc
        = none) ∧
    bellmanFord negCycleGraph "A" "A" false = none := by
  refine ⟨by with_unfolding_all decide, ?_, by with_unfolding_all decide⟩
  intro fuel acc
  rw [show (bellmanCore negCycleGraph "A" false).previous
    = [("A", some "C"), ("B", some "A"), ("C", some "B")] by with_unfolding_all decide]
  exact negCycle_recon_stuck fuel "A" acc (Or.inl rfl)

/-! ## Claim C6: emergency mode versus the cleared graph -/

theorem mget_map_snd {α β : Type} (f : α → β) (m : List (String × α)) (k : String) :
    mget (m.map (fun p => (p.1, f p.2))) k = (mget m k).map f := by
  induction m with
  | nil => rfl
  | cons p t ih =>
    by_cases hp : p.1 = k
    · simp [mget, hp]
    · simp [mget, hp, ih]

theorem totalEdges_clearGraph (g : Graph) : totalEdges (clearGraph g) = totalEdges g := by
  unfold totalEdges clearGraph
  rw [List.map_map]
  congr 1
  apply List.map_congr_left
  intro p _
  simp

theorem dijkstraCost_clearEdge (ed : Edge) :
    dijkstraCost (clearEdge ed) false = dijkstraCost ed true := by
  simp [dijkstraCost, clearEdge]

theorem dijkstraRelax_clear (cur : String) (ed : Edge) (stT stF : DState)
    (hd : stF.distances = stT.distances) (hp : stF.previous = stT.previous)
    (hv : stF.visited = stT.visited) (hq : stF.pq = stT.pq) :
    (dijkstraRelax false cur stF (clearEdge ed)).distances
        = (dijkstraRelax true cur stT ed).distances ∧
    (dijkstraRelax false cur stF (clearEdge ed)).previous
        = (dijkstraRelax true cur stT ed).previous ∧
    (dijkstraRelax false cur stF (clearEdge ed)).visited
        = (dijkstraRelax true cur stT ed).visited ∧
    (dijkstraRelax false cur stF (clearEdge ed)).pq
        = (dijkstraRelax true cur stT ed).pq := by
  unfold dijkstraRelax
  rw [show dijkstraSkips (clearEdge ed) false = false by simp [dijkstraSkips, clearEdge],
    show dijkstraSkips ed true = false by simp [dijkstraSkips]]
  simp only [Bool.false_eq_true, if_false]
  rw [show (clearEdge ed).toId = ed.toId from rfl, dijkstraCost_clearEdge, hd]
  cases mget stT.distances cur with
  | none => exact ⟨hd, hp, hv, hq⟩
  | some dc =>
    cases mget stT.distances ed.toId with
    | none => exact ⟨hd, hp, hv, hq⟩
    | some dn =>
      by_cases hlt : dc + (dijkstraCost ed true : WithTop ℚ) < dn
      · simp only [hlt, if_true]
        refine ⟨?_, ?_, ?_, ?_⟩ <;> simp [hd, hp, hv, hq]
      · simp only [hlt, if_false]
        exact ⟨hd, hp, hv, hq⟩

theorem foldRelax_clear (cur : String) (edges : List Edge) (stT stF : DState)
    (hd : stF.distances = stT.distances) (hp : stF.previous = stT.previous)
    (hv : stF.visited = stT.visited) (hq : stF.pq = stT.pq) :
    ((edges.map clearEdge).foldl (dijkstraRelax false cur) stF).distances
        = (edges.foldl (dijkstraRelax true cur) stT).distances ∧
    ((edges.map clearEdge).foldl (dijkstraRelax false cur) stF).previous
        = (edges.foldl (dijkstraRelax true cur) stT).previous ∧
    ((edges.map clearEdge).foldl (dijkstraRelax false cur) stF).visited
        = (edges.foldl (dijkstraRelax true cur) stT).visited ∧
    ((edges.map clearEdge).foldl (dijkstraRelax false cur) stF).pq
        = (edges.foldl (dijkstraRelax true cur) stT).pq := by
  induction edges generalizing stT stF with
  | nil => exact ⟨hd, hp, hv, hq⟩
  | cons ed t ih =>
    rw [List.map_cons, List.foldl_cons, List.foldl_cons]
    have h1 := dijkstraRelax_clear cur ed stT stF hd hp hv hq
    exact ih _ _ h1.1 h1.2.1 h1.2.2.1 h1.2.2.2

theorem dijkstraLoop_clear (e : String) :
    ∀ (n : ℕ) (stT stF : DState),
      stF.distances = stT.distances → stF.previous = stT.previous →
      stF.visited = stT.visited → stF.pq = stT.pq →
      stF.graph = clearGraph stT.graph →
      (dijkstraLoop e false n stF = none ∧ dijkstraLoop e true n stT = none) ∨
      (∃ sF sT, dijkstraLoop e false n stF = some sF ∧
        dijkstraLoop e true n stT = some sT ∧
        sF.distances = sT.distances ∧ sF.previous = sT.previous ∧
        sF.visited = sT.visited ∧ sF.pq = sT.pq) := by
  intro n
  induction n with
  | zero => intro stT stF _ _ _ _ _; exact Or.inl ⟨rfl, rfl⟩
  | succ n ih =>
    intro stT stF hd hp hv hq hg
    rw [dijkstraLoop, dijkstraLoop, hq]
    cases hdq : dequeue stT.pq with
    | none =>
      simp only
      exact Or.inr ⟨stF, stT, rfl, rfl, hd, hp, hv, hq⟩
    | some r =>
      obtain ⟨current, pq'⟩ := r
      simp only
      by_cases hvc : current ∈ stT.visited
      · rw [if_pos (hv ▸ hvc), if_pos hvc]
        exact ih { stT with pq := pq' } { stF with pq := pq' } hd hp hv rfl hg
      · rw [if_neg (hv ▸ hvc), if_neg hvc]
        by_cases he : current = e
        · rw [if_pos he, if_pos he]
          exact Or.inr ⟨_, _, rfl, rfl, hd, hp, by rw [hv], rfl⟩
        · rw [if_neg he, if_neg he]
          have hedges : (mget stF.graph.edges current).getD []
              = ((mget stT.graph.edges current).getD []).map clearEdge := by
            rw [hg]
            have hm : mget (clearGraph stT.graph).edges current
                = (mget stT.graph.edges current).map (List.map clearEdge) := by
              show mget (stT.graph.edges.map (fun p => (p.1, p.2.map clearEdge)))
                current = _
              exact mget_map_snd _ _ _
            rw [hm]
            cases mget stT.graph.edges current <;> rfl
          rw [hedges]
          have h2 := foldRelax_clear current ((mget stT.graph.edges current).getD [])
            { stT with pq := pq', visited := stT.visited ++ [current] }
            { stF with pq := pq', visited := stF.visited ++ [current] }
            hd hp (by rw [hv]) rfl
          refine ih (((mget stT.graph.edges current).getD []).foldl
              (dijkstraRelax true current)
              { stT with pq := pq', visited := stT.visited ++ [current] })
            ((((mget stT.graph.edges current).getD []).map clearEdge).foldl
              (dijkstraRelax false current)
              { stF with pq := pq', visited := stF.visited ++ [current] })
            h2.1 h2.2.1 h2.2.2.1 h2.2.2.2 ?_
          rw [foldRelax_graph, foldRelax_graph]
          exact hg

/-- `dijkstra` in emergency mode equals `dijkstra` on the cleared graph. -/
theorem dijkstra_clear (g : Graph) (s e : String) :
    dijkstra g s e true = dijkstra (clearGraph g) s e false := by
  have hfuel : dMeasure (dijkstraInit (clearGraph g) s) + 1
      = dMeasure (dijkstraInit g s) + 1 := by
    simp only [dMeasure]
    rw [show (dijkstraInit (clearGraph g) s).graph = clearGraph g from rfl,
      show (dijkstraInit g s).graph = g from rfl, totalEdges_clearGraph]
    rfl
  have hrel := dijkstraLoop_clear e (dMeasure (dijkstraInit g s) + 1)
    (dijkstraInit g s) (dijkstraInit (clearGraph g) s) rfl rfl rfl rfl rfl
  unfold dijkstra
  rcases hrel with ⟨hnF, hnT⟩ | ⟨sF, sT, hsF, hsT, hd, hp, hv, hq⟩
  · rw [show dijkstraSearch g s e true
        = dijkstraLoop e true (dMeasure (dijkstraInit g s) + 1) (dijkstraInit g s)
        from rfl, hnT,
      show dijkstraSearch (clearGraph g) s e false
        = dijkstraLoop e false (dMeasure (dijkstraInit (clearGraph g) s) + 1)
          (dijkstraInit (clearGraph g) s) from rfl, hfuel, hnF]
  · rw [show dijkstraSearch g s e true
        = dijkstraLoop e true (dMeasure (dijkstraInit g s) + 1) (dijkstraInit g s)
        from rfl, hsT,
      show dijkstraSearch (clearGraph g) s e false
        = dijkstraLoop e false (dMeasure (dijkstraInit (clearGraph g) s) + 1)
          (dijkstraInit (clearGraph g) s) from rfl, hfuel, hsF]
    simp only
    rw [hp, hd, hv]

theorem aStarCost_clearEdge (ed : Edge) :
    aStarCost (clearEdge ed) false = aStarCost ed true := by
  simp [aStarCost, clearEdge]

theorem aStarRelax_clear (h : String → WithTop ℚ) (cur : String) (ed : Edge)
    (stT stF : AState)
    (hd : stF.gScore = stT.gScore) (hf : stF.fScore = stT.fScore)
    (hp : stF.previous = stT.previous) (hv : stF.visited = stT.visited)
    (hq : stF.pq = stT.pq) :
    (aStarRelax false h cur stF (clearEdge ed)).gScore
        = (aStarRelax true h cur stT ed).gScore ∧
    (aStarRelax false h cur stF (clearEdge ed)).fScore
        = (aStarRelax true h cur stT ed).fScore ∧
    (aStarRelax false h cur stF (clearEdge ed)).previous
        = (aStarRelax true h cur stT ed).previous ∧
    (aStarRelax false h cur stF (clearEdge ed)).visited
        = (aStarRelax true h cur stT ed).visited ∧
    (aStarRelax false h cur stF (clearEdge ed)).pq
        = (aStarRelax true h cur stT ed).pq := by
  unfold aStarRelax
  rw [show aStarSkips (clearEdge ed) false = false by simp [aStarSkips, clearEdge],
    show aStarSkips ed true = false by simp [aStarSkips]]
  simp only [Bool.false_eq_true, if_false]
  rw [show (clearEdge ed).toId = ed.toId from rfl, aStarCost_clearEdge, hd]
  cases mget stT.gScore cur with
  | none => exact ⟨hd, hf, hp, hv, hq⟩
  | some gc =>
    cases mget stT.gScore ed.toId with
    | none => exact ⟨hd, hf, hp, hv, hq⟩
    | some gn =>
      by_cases hlt : gc + (aStarCost ed true : WithTop ℚ) < gn
      · simp only [hlt, if_true]
        refine ⟨?_, ?_, ?_, ?_, ?_⟩ <;> simp [hd, hf, hp, hv, hq]
      · simp only [hlt, if_false]
        exact ⟨hd, hf, hp, hv, hq⟩

theorem foldARelax_clear (h : String → WithTop ℚ) (cur : String) (edges : List Edge)
    (stT stF : AState)
    (hd : stF.gScore = stT.gScore) (hf : stF.fScore = stT.fScore)
    (hp : stF.previous = stT.previous) (hv : stF.visited = stT.visited)
    (hq : stF.pq = stT.pq) :
    ((edges.map clearEdge).foldl (aStarRelax false h cur) stF).gScore
        = (edges.foldl (aStarRelax true h cur) stT).gScore ∧
    ((edges.map clearEdge).foldl (aStarRelax false h cur) stF).fScore
        = (edges.foldl (aStarRelax true h cur) stT).fScore ∧
    ((edges.map clearEdge).foldl (aStarRelax false h cur) stF).previous
        = (edges.foldl (aStarRelax true h cur) stT).previous ∧
    ((edges.map clearEdge).foldl (aStarRelax false h cur) stF).visited
        = (edges.foldl (aStarRelax true h cur) stT).visited ∧
    ((edges.map clearEdge).foldl (aStarRelax false h cur) stF).pq
        = (edges.foldl (aStarRelax true h cur) stT).pq := by
  induction edges generalizing stT stF with
  | nil => exact ⟨hd, hf, hp, hv, hq⟩
  | cons ed t ih =>
    rw [List.map_cons, List.foldl_cons, List.foldl_cons]
    have h1 := aStarRelax_clear h cur ed stT stF hd hf hp hv hq
    exact ih _ _ h1.1 h1.2.1 h1.2.2.1 h1.2.2.2.1 h1.2.2.2.2

theorem aStarLoop_clear (e : String) (h : String → WithTop ℚ) :
    ∀ (n : ℕ) (stT stF : AState),
      stF.gScore = stT.gScore → stF.fScore = stT.fScore →
      stF.previous = stT.previous → stF.visited = stT.visited → stF.pq = stT.pq →
      stF.graph = clearGraph stT.graph →
      (aStarLoop e false h n stF = none ∧ aStarLoop e true h n stT = none) ∨
      (∃ sF sT, aStarLoop e false h n stF = some sF ∧
        aStarLoop e true h n stT = some sT ∧
        sF.gScore = sT.gScore ∧ sF.previous = sT.previous ∧
        sF.visited = sT.visited ∧ sF.pq = sT.pq) := by
  intro n
  induction n with
  | zero => intro stT stF _ _ _ _ _ _; exact Or.inl ⟨rfl, rfl⟩
  | succ n ih =>
    intro stT stF hd hf hp hv hq hg
    rw [aStarLoop, aStarLoop, hq]
    cases hdq : dequeue stT.pq with
    | none =>
      simp only
      exact Or.inr ⟨stF, stT, rfl, rfl, hd, hp, hv, hq⟩
    | some r =>
      obtain ⟨current, pq'⟩ := r
      simp only
      by_cases hvc : current ∈ stT.visited
      · rw [if_pos (hv ▸ hvc), if_pos hvc]
        exact ih { stT with pq := pq' } { stF with pq := pq' } hd hf hp hv rfl hg
      · rw [if_neg (hv ▸ hvc), if_neg hvc]
        by_cases he : current = e
        · rw [if_pos he, if_pos he]
          exact Or.inr ⟨_, _, rfl, rfl, hd, hp, by rw [hv], rfl⟩
        · rw [if_neg he, if_neg he]
          have hedges : (mget stF.graph.edges current).getD []
              = ((mget stT.graph.edges current).getD []).map clearEdge := by
            rw [hg]
            have hm : mget (clearGraph stT.graph).edges current
                = (mget stT.graph.edges current).map (List.map clearEdge) := by
              show mget (stT.graph.edges.map (fun p => (p.1, p.2.map clearEdge)))
                current = _
              exact mget_map_snd _ _ _
            rw [hm]
            cases mget stT.graph.edges current <;> rfl
          rw [hedges]
          have h2 := foldARelax_clear h current ((mget stT.graph.edges current).getD [])
            { stT with pq := pq', visited := stT.visited ++ [current] }
            { stF with pq := pq', visited := stF.visited ++ [current] }
            hd hf hp (by rw [hv]) rfl
          refine ih (((mget stT.graph.edges current).getD []).foldl
              (aStarRelax true h current)
              { stT with pq := pq', visited := stT.visited ++ [current] })
            ((((mget stT.graph.edges current).getD []).map clearEdge).foldl
              (aStarRelax false h current)
              { stF with pq := pq', visited := stF.visited ++ [current] })
            h2.1 h2.2.1 h2.2.2.1 h2.2.2.2.1 h2.2.2.2.2 ?_
          rw [foldARelax_graph, foldARelax_graph]
          exact hg

/-- `aStar` in emergency mode equals `aStar` on the cleared graph (the
heuristic depends only on the untouched node coordinates). -/
theorem aStarH_clear (g : Graph) (s e : String) (h : String → WithTop ℚ) :
    aStarH g s e true h = aStarH (clearGraph g) s e false h := by
  have hnodes : (clearGraph g).nodes = g.nodes := rfl
  unfold aStarH
  rw [hnodes]
  cases hgs : mget g.nodes s with
  | none => rfl
  | some ns =>
    cases hge : mget g.nodes e with
    | none => rfl
    | some ne' =>
      simp only
      have hfuel : aMeasure (aStarInit (clearGraph g) s h) + 1
          = aMeasure (aStarInit g s h) + 1 := by
        simp only [aMeasure]
        rw [show (aStarInit (clearGraph g) s h).graph = clearGraph g from rfl,
          show (aStarInit g s h).graph = g from rfl, totalEdges_clearGraph]
        rfl
      have hrel := aStarLoop_clear e h (aMeasure (aStarInit g s h) + 1)
        (aStarInit g s h) (aStarInit (clearGraph g) s h) rfl rfl rfl rfl rfl rfl
      rcases hrel with ⟨hnF, hnT⟩ | ⟨sF, sT, hsF, hsT, hd, hp, hv, hq⟩
      · rw [hnT, hfuel, hnF]
      · rw [hsT, hfuel, hsF]
        simp only
        rw [hp, hd, hv]

theorem bellmanCost_clearEdge (ed : Edge) :
    bellmanCost (clearEdge ed) false = bellmanCost ed true := by
  simp [bellmanCost, clearEdge]

theorem allEdgesList_clear (g : Graph) :
    allEdgesList (clearGraph g) false = allEdgesList g true := by
  unfold allEdgesList
  rw [show (clearGraph g).edges = g.edges.map (fun p => (p.1, p.2.map clearEdge))
    from rfl]
  suffices hout : ∀ (l : List (String × List Edge)) (acc : List (String × String × ℚ)),
      (l.map (fun p => (p.1, p.2.map clearEdge))).foldl
        (fun acc2 p => p.2.foldl (fun a ed =>
          if bellmanKeeps ed false then a ++ [(p.1, ed.toId, bellmanCost ed false)]
          else a) acc2) acc
      = l.foldl (fun acc2 p => p.2.foldl (fun a ed =>
          if bellmanKeeps ed true then a ++ [(p.1, ed.toId, bellmanCost ed true)]
          else a) acc2) acc by
    exact hout g.edges []
  have hin : ∀ (k : String) (es : List Edge) (acc : List (String × String × ℚ)),
      (es.map clearEdge).foldl (fun a ed =>
        if bellmanKeeps ed false then a ++ [(k, ed.toId, bellmanCost ed false)]
        else a) acc
      = es.foldl (fun a ed =>
        if bellmanKeeps ed true then a ++ [(k, ed.toId, bellmanCost ed true)]
        else a) acc := by
    intro k es
    induction es with
    | nil => intro acc; rfl
    | cons ed t ih =>
      intro acc
      rw [List.map_cons, List.foldl_cons, List.foldl_cons,
        show bellmanKeeps (clearEdge ed) false = true by simp [bellmanKeeps, clearEdge],
        show bellmanKeeps ed true = true by simp [bellmanKeeps],
        if_pos rfl, if_pos rfl,
        show (clearEdge ed).toId = ed.toId from rfl, bellmanCost_clearEdge]
      exact ih _
  intro l
  induction l with
  | nil => intro acc; rfl
  | cons p t ih =>
    intro acc
    rw [List.map_cons, List.foldl_cons, List.foldl_cons]
    simp only
    rw [hin p.1 p.2 acc]
    exact ih _

theorem bfRelax_indep (g1 g2 : Graph) (d : List (String × WithTop ℚ))
    (p : List (String × Option String)) (ed : String × String × ℚ) :
    (bfRelax ⟨g1, d, p⟩ ed).distances = (bfRelax ⟨g2, d, p⟩ ed).distances ∧
    (bfRelax ⟨g1, d, p⟩ ed).previous = (bfRelax ⟨g2, d, p⟩ ed).previous := by
  unfold bfRelax
  cases mget d ed.1 with
  | none => exact ⟨rfl, rfl⟩
  | some du =>
    cases mget d ed.2.1 with
    | none => exact ⟨rfl, rfl⟩
    | some dv =>
      by_cases hlt : du + (ed.2.2 : WithTop ℚ) < dv
      · simp only [hlt, if_true]
        constructor <;> trivial
      · simp only [hlt, if_false]
        constructor <;> trivial

theorem bfFold_indep (edges : List (String × String × ℚ)) :
    ∀ (g1 g2 : Graph) (d : List (String × WithTop ℚ))
      (p : List (String × Option String)),
      (edges.foldl bfRelax ⟨g1, d, p⟩).distances
        = (edges.foldl bfRelax ⟨g2, d, p⟩).distances ∧
      (edges.foldl bfRelax ⟨g1, d, p⟩).previous
        = (edges.foldl bfRelax ⟨g2, d, p⟩).previous := by
  induction edges with
  | nil => intro g1 g2 d p; exact ⟨rfl, rfl⟩
  | cons ed t ih =>
    intro g1 g2 d p
    rw [List.foldl_cons, List.foldl_cons]
    have h1 := bfRelax_indep g1 g2 d p ed
    have e1 : bfRelax ⟨g1, d, p⟩ ed
        = ⟨g1, (bfRelax (⟨g2, d, p⟩ : BFState) ed).distances,
            (bfRelax (⟨g2, d, p⟩ : BFState) ed).previous⟩ := by
      rw [← h1.1, ← h1.2]
      conv_lhs => rw [show bfRelax (⟨g1, d, p⟩ : BFState) ed
        = ⟨(bfRelax (⟨g1, d, p⟩ : BFState) ed).graph,
           (bfRelax (⟨g1, d, p⟩ : BFState) ed).distances,
           (bfRelax (⟨g1, d, p⟩ : BFState) ed).previous⟩ from rfl]
      rw [bfRelax_graph]
    have e2 : bfRelax ⟨g2, d, p⟩ ed
        = ⟨g2, (bfRelax (⟨g2, d, p⟩ : BFState) ed).distances,
            (bfRelax (⟨g2, d, p⟩ : BFState) ed).previous⟩ := by
      conv_lhs => rw [show bfRelax (⟨g2, d, p⟩ : BFState) ed
        = ⟨(bfRelax (⟨g2, d, p⟩ : BFState) ed).graph,
           (bfRelax (⟨g2, d, p⟩ : BFState) ed).distances,
           (bfRelax (⟨g2, d, p⟩ : BFState) ed).previous⟩ from rfl]
      rw [bfRelax_graph]
    rw [e1, e2]
    exact ih g1 g2 _ _

theorem bfPasses_indep (edges : List (String × String × ℚ)) :
    ∀ (n : ℕ) (g1 g2 : Graph) (d : List (String × WithTop ℚ))
      (p : List (String × Option String)),
      (bfPasses edges n ⟨g1, d, p⟩).distances
        = (bfPasses edges n ⟨g2, d, p⟩).distances ∧
      (bfPasses edges n ⟨g1, d, p⟩).previous
        = (bfPasses edges n ⟨g2, d, p⟩).previous
  | 0, g1, g2, d, p => ⟨rfl, rfl⟩
  | n + 1, g1, g2, d, p => by
    rw [bfPasses, bfPasses]
    have h1 := bfFold_indep edges g1 g2 d p
    have e1 : edges.foldl bfRelax ⟨g1, d, p⟩
        = ⟨g1, (edges.foldl bfRelax (⟨g2, d, p⟩ : BFState)).distances,
            (edges.foldl bfRelax (⟨g2, d, p⟩ : BFState)).previous⟩ := by
      rw [← h1.1, ← h1.2]
      conv_lhs => rw [show edges.foldl bfRelax (⟨g1, d, p⟩ : BFState)
        = ⟨(edges.foldl bfRelax (⟨g1, d, p⟩ : BFState)).graph,
           (edges.foldl bfRelax (⟨g1, d, p⟩ : BFState)).distances,
           (edges.foldl bfRelax (⟨g1, d, p⟩ : BFState)).previous⟩ from rfl]
      rw [bfFold_graph]
    have e2 : edges.foldl bfRelax ⟨g2, d, p⟩
        = ⟨g2, (edges.foldl bfRelax (⟨g2, d, p⟩ : BFState)).distances,
            (edges.foldl bfRelax (⟨g2, d, p⟩ : BFState)).previous⟩ := by
      conv_lhs => rw [show edges.foldl bfRelax (⟨g2, d, p⟩ : BFState)
        = ⟨(edges.foldl bfRelax (⟨g2, d, p⟩ : BFState)).graph,
           (edges.foldl bfRelax (⟨g2, d, p⟩ : BFState)).distances,
           (edges.foldl bfRelax (⟨g2, d, p⟩ : BFState)).previous⟩ from rfl]
      rw [bfFold_graph]
    rw [e1, e2]
    exact bfPasses_indep edges n g1 g2 _ _

theorem bfHasNegCycle_congr (st1 st2 : BFState) (edges : List (String × String × ℚ))
    (hd : st1.distances = st2.distances) :
    bfHasNegCycle st1 edges = bfHasNegCycle st2 edges := by
  unfold bfHasNegCycle
  rw [hd]

/-- `bellmanFord` in emergency mode equals `bellmanFord` on the cleared
graph. -/
theorem bellmanFord_clear (g : Graph) (s e : String) :
    bellmanFord g s e true = bellmanFord (clearGraph g) s e false := by
  have hedges := allEdgesList_clear g
  have hcount : (mkeys (clearGraph g).nodes).dedup.length = (mkeys g.nodes).dedup.length :=
    rfl
  have hpass := bfPasses_indep (allEdgesList g true)
    ((mkeys g.nodes).dedup.length - 1) (clearGraph g) g
    (initDistances g s) (initPrevious g)
  have hdist : (bellmanCore (clearGraph g) s false).distances
      = (bellmanCore g s true).distances := by
    show (bfPasses (allEdgesList (clearGraph g) false)
      ((mkeys (clearGraph g).nodes).dedup.length - 1)
      ⟨clearGraph g, initDistances (clearGraph g) s,
        initPrevious (clearGraph g)⟩).distances = _
    rw [hedges]
    exact hpass.1
  have hprev : (bellmanCore (clearGraph g) s false).previous
      = (bellmanCore g s true).previous := by
    show (bfPasses (allEdgesList (clearGraph g) false)
      ((mkeys (clearGraph g).nodes).dedup.length - 1)
      ⟨clearGraph g, initDistances (clearGraph g) s,
        initPrevious (clearGraph g)⟩).previous = _
    rw [hedges]
    exact hpass.2
  have hflag : (bellmanCore (clearGraph g) s false).hasNegativeCycle
      = (bellmanCore g s true).hasNegativeCycle := by
    show bfHasNegCycle (bfPasses (allEdgesList (clearGraph g) false)
        ((mkeys (clearGraph g).nodes).dedup.length - 1)
        ⟨clearGraph g, initDistances (clearGraph g) s, initPrevious (clearGraph g)⟩)
        (allEdgesList (clearGraph g) false)
      = bfHasNegCycle (bfPasses (allEdgesList g true)
        ((mkeys g.nodes).dedup.length - 1)
        ⟨g, initDistances g s, initPrevious g⟩) (allEdgesList g true)
    rw [hedges]
    exact bfHasNegCycle_congr _ _ _ hpass.1
  unfold bellmanFord
  dsimp only
  rw [hdist, hprev, hflag]

/-- C6: for every graph, source, destination and heuristic, a search in
emergency mode returns exactly the result of the same algorithm in normal
mode on the graph with every edge unblocked and its traffic zeroed. -/
theorem claim_C6 (g : Graph) (s e : String) (h : String → WithTop ℚ) :
    dijkstra g s e true = dijkstra (clearGraph g) s e false ∧
    aStarH g s e true h = aStarH (clearGraph g) s e false h ∧
    bellmanFord g s e true = bellmanFord (clearGraph g) s e false :=
  ⟨dijkstra_clear g s e, aStarH_clear g s e h, bellmanFord_clear g s e⟩

/-! ## Claim C2: aStar versus dijkstra

The Euclidean heuristic of the source is not admissible for the cost model
(coordinates are screen pixels, weights are unrelated abstract costs), and
an inadmissible heuristic makes the early-exit A* return a non-minimal
distance.  A collinear three-node graph exhibits the divergence with an
exactly-rational Euclidean heuristic.  Conversely, when the heuristic is a
finite constant, every heap comparison of `aStar` is the corresponding
`dijkstra` comparison shifted by the constant, the two searches run in
lockstep, and the returned distances agree. -/

theorem aStarRelax_dijkstra (em : Bool) (h : String → WithTop ℚ) (c : ℚ)
    (hconst : ∀ id, h id = ((c : ℚ) : WithTop ℚ)) (cur : String) (ed : Edge)
    (stD : DState) (stA : AState)
    (hd : stA.gScore = stD.distances) (hp : stA.previous = stD.previous)
    (hv : stA.visited = stD.visited) (hq : stA.pq = pqShift c stD.pq) :
    (aStarRelax em h cur stA ed).gScore = (dijkstraRelax em cur stD ed).distances ∧
    (aStarRelax em h cur stA ed).previous = (dijkstraRelax em cur stD ed).previous ∧
    (aStarRelax em h cur stA ed).visited = (dijkstraRelax em cur stD ed).visited ∧
    (aStarRelax em h cur stA ed).pq = pqShift c (dijkstraRelax em cur stD ed).pq := by
  unfold aStarRelax dijkstraRelax
  rw [show aStarSkips ed em = dijkstraSkips ed em from rfl]
  by_cases hs : dijkstraSkips ed em = true
  · rw [if_pos hs, if_pos hs]
    exact ⟨hd, hp, hv, hq⟩
  · rw [if_neg hs, if_neg hs]
    dsimp only
    rw [show aStarCost ed em = dijkstraCost ed em from rfl, hd]
    cases hc : mget stD.distances cur with
    | none => exact ⟨hd, hp, hv, hq⟩
    | some dc =>
      cases hn : mget stD.distances ed.toId with
      | none => exact ⟨hd, hp, hv, hq⟩
      | some dn =>
        by_cases hlt : dc + ((dijkstraCost ed em : ℚ) : WithTop ℚ) < dn
        · simp only [hlt, if_true]
          refine ⟨trivial, by rw [hp], hv, ?_⟩
          show enqueue stA.pq ed.toId
              (dc + ((dijkstraCost ed em : ℚ) : WithTop ℚ) + h ed.toId)
            = pqShift c (enqueue stD.pq ed.toId
              (dc + ((dijkstraCost ed em : ℚ) : WithTop ℚ)))
          rw [hconst ed.toId, hq, enqueue_pqShift]
        · simp only [hlt, if_false]
          exact ⟨hd, hp, hv, hq⟩

theorem foldARelax_dijkstra (em : Bool) (h : String → WithTop ℚ) (c : ℚ)
    (hconst : ∀ id, h id = ((c : ℚ) : WithTop ℚ)) (cur : String)
    (edges : List Edge) :
    ∀ (stD : DState) (stA : AState),
      stA.gScore = stD.distances → stA.previous = stD.previous →
      stA.visited = stD.visited → stA.pq = pqShift c stD.pq →
      (edges.foldl (aStarRelax em h cur) stA).gScore
        = (edges.foldl (dijkstraRelax em cur) stD).distances ∧
      (edges.foldl (aStarRelax em h cur) stA).previous
        = (edges.foldl (dijkstraRelax em cur) stD).previous ∧
      (edges.foldl (aStarRelax em h cur) stA).visited
        = (edges.foldl (dijkstraRelax em cur) stD).visited ∧
      (edges.foldl (aStarRelax em h cur) stA).pq
        = pqShift c (edges.foldl (dijkstraRelax em cur) stD).pq := by
  induction edges with
  | nil => intro stD stA hd hp hv hq; exact ⟨hd, hp, hv, hq⟩
  | cons ed t ih =>
    intro stD stA hd hp hv hq
    rw [List.foldl_cons, List.foldl_cons]
    have h1 := aStarRelax_dijkstra em h c hconst cur ed stD stA hd hp hv hq
    exact ih _ _ h1.1 h1.2.1 h1.2.2.1 h1.2.2.2

theorem aStarLoop_dijkstra (e : String) (em : Bool) (h : String → WithTop ℚ)
    (c : ℚ) (hconst : ∀ id, h id = ((c : ℚ) : WithTop ℚ)) :
    ∀ (n : ℕ) (stD : DState) (stA : AState),
      stA.graph = stD.graph → stA.gScore = stD.distances →
      stA.previous = stD.previous → stA.visited = stD.visited →
      stA.pq = pqShift c stD.pq →
      (aStarLoop e em h n stA = none ∧ dijkstraLoop e em n stD = none) ∨
      (∃ sA sD, aStarLoop e em h n stA = some sA ∧
        dijkstraLoop e em n stD = some sD ∧
        sA.gScore = sD.distances ∧ sA.previous = sD.previous ∧
        sA.visited = sD.visited) := by
  intro n
  induction n with
  | zero => intro stD stA _ _ _ _ _; exact Or.inl ⟨rfl, rfl⟩
  | succ n ih =>
    intro stD stA hg hd hp hv hq
    rw [aStarLoop, dijkstraLoop, hq, dequeue_pqShift]
    cases hdq : dequeue stD.pq with
    | none =>
      simp only [Option.map_none']
      exact Or.inr ⟨stA, stD, rfl, rfl, hd, hp, hv⟩
    | some r =>
      obtain ⟨current, pq'⟩ := r
      simp only [Option.map_some']
      by_cases hvc : current ∈ stD.visited
      · rw [if_pos (hv ▸ hvc), if_pos hvc]
        exact ih { stD with pq := pq' } { stA with pq := pqShift c pq' }
          hg hd hp hv rfl
      · rw [if_neg (hv ▸ hvc), if_neg hvc]
        by_cases he2 : current = e
        · rw [if_pos he2, if_pos he2]
          exact Or.inr ⟨_, _, rfl, rfl, hd, hp, by rw [hv]⟩
        · rw [if_neg he2, if_neg he2]
          rw [show mget stA.graph.edges current = mget stD.graph.edges current
            by rw [hg]]
          have h2 := foldARelax_dijkstra em h c hconst current
            ((mget stD.graph.edges current).getD [])
            { stD with pq := pq', visited := stD.visited ++ [current] }
            { stA with pq := pqShift c pq', visited := stA.visited ++ [current] }
            hd hp (by rw [hv]) rfl
          refine ih (((mget stD.graph.edges current).getD []).foldl
              (dijkstraRelax em current)
              { stD with pq := pq', visited := stD.visited ++ [current] })
            (((mget stD.graph.edges current).getD []).foldl
              (aStarRelax em h current)
              { stA with pq := pqShift c pq', visited := stA.visited ++ [current] })
            ?_ h2.1 h2.2.1 h2.2.2.1 h2.2.2.2
          rw [foldARelax_graph, foldRelax_graph]
          exact hg

/-- C2 (amended): for every graph, endpoints and emergency flag, if the
heuristic the search closes over is a finite constant on all ids, `aStar`
and `dijkstra` return equal distances.  (The source's own pixel-Euclidean
heuristic is not constant and not admissible for the cost model, and the
two algorithms then disagree; see the counterexample.) -/
theorem claim_C2 (g : Graph) (s e : String) (em : Bool) (h : String → WithTop ℚ)
    (c : ℚ) (hconst : ∀ id, h id = ((c : ℚ) : WithTop ℚ)) :
    (aStarH g s e em h).map SearchResult.distance
      = (dijkstra g s e em).map SearchResult.distance := by
  by_cases hsm : s ∈ mkeys g.nodes
  · by_cases hem : e ∈ mkeys g.nodes
    · obtain ⟨ns, hns⟩ := Option.isSome_iff_exists.mp ((mget_isSome_iff _ _).mpr hsm)
      obtain ⟨ne2, hne2⟩ := Option.isSome_iff_exists.mp ((mget_isSome_iff _ _).mpr hem)
      have hpq : (aStarInit g s h).pq = pqShift c (dijkstraInit g s).pq := by
        show enqueue [] s ((mget (aStarInitF g s h) s).getD ⊤)
          = pqShift c (enqueue [] s 0)
        rw [mget_aStarInitF, if_pos hsm, if_pos rfl, hconst s]
        rw [show ((some ((c : ℚ) : WithTop ℚ)).getD ⊤) = ((c : ℚ) : WithTop ℚ)
          from rfl]
        rw [← enqueue_pqShift c [] s 0]
        rw [show pqShift c ([] : List (WithTop ℚ × String)) = [] from rfl]
        rw [zero_add]
      have hfuel : aMeasure (aStarInit g s h) + 1 = dMeasure (dijkstraInit g s) + 1 := by
        have h1 : aUnvisitedCount (aStarInit g s h)
            = unvisitedCount (dijkstraInit g s) := rfl
        show aUnvisitedCount (aStarInit g s h)
            * (totalEdges (aStarInit g s h).graph + 1)
            + (aStarInit g s h).pq.length + 1 = _
        rw [h1, hpq, pqShift_length, show (aStarInit g s h).graph = g from rfl]
        rfl
      have hrel := aStarLoop_dijkstra e em h c hconst
        (dMeasure (dijkstraInit g s) + 1) (dijkstraInit g s) (aStarInit g s h)
        rfl rfl rfl rfl hpq
      rcases hrel with ⟨hnA, hnD⟩ | ⟨sA, sD, hsA, hsD, hcd, hcp, hcv⟩
      · have hsearch : dijkstraSearch g s e em = none := hnD
        unfold aStarH dijkstra
        rw [hns, hne2, hsearch]
        dsimp only
        rw [hfuel, hnA]
      · have hsearch : dijkstraSearch g s e em = some sD := hsD
        unfold aStarH dijkstra
        rw [hns, hne2, hsearch]
        dsimp only
        rw [hfuel, hsA]
        simp only
        rw [hcp, hcd]
        cases reconstructPath sD.previous e <;> rfl
    · obtain ⟨r, hr, hrd, hrp⟩ := dijkstra_missing g s e em (Or.inr hem)
      rw [aStarH_missing g s e em h (Or.inr hem), hr]
      show some (⊤ : WithTop ℚ) = some r.distance
      rw [hrd]
  · obtain ⟨r, hr, hrd, hrp⟩ := dijkstra_missing g s e em (Or.inl hsm)
    rw [aStarH_missing g s e em h (Or.inl hsm), hr]
    show some (⊤ : WithTop ℚ) = some r.distance
    rw [hrd]

/-- C2 witness: the constant-zero heuristic on the one-node graph. -/
theorem claim_C2_witness :
    (∀ id : String, (fun _ : String => ((0 : ℚ) : WithTop ℚ)) id
      = ((0 : ℚ) : WithTop ℚ)) ∧
    (aStarH oneNodeGraph "A" "A" false
        (fun _ : String => ((0 : ℚ) : WithTop ℚ))).map SearchResult.distance
      = (dijkstra oneNodeGraph "A" "A" false).map SearchResult.distance :=
  ⟨fun _ => rfl,
   claim_C2 oneNodeGraph "A" "A" false
     (fun _ : String => ((0 : ℚ) : WithTop ℚ)) 0 (fun _ => rfl)⟩

/-- Three collinear nodes: destination `T` at the origin, source `S` at
`(10, 0)`, detour node `A` at `(1000, 0)`.  Cheap edges `S → A → T`
(weight 1 each), direct edge `S → T` of weight 10; no traffic, nothing
blocked.  All Euclidean distances to `T` are integers. -/
def collinearGraph : Graph :=
  ⟨[("T", mkNode "T" 0 0), ("S", mkNode "S" 10 0), ("A", mkNode "A" 1000 0)],
   [("S", [⟨"S", "A", 1, 0, false⟩, ⟨"S", "T", 10, 0, false⟩]),
    ("A", [⟨"A", "T", 1, 0, false⟩])]⟩

/-- The source's Euclidean heuristic on `collinearGraph` with destination
`T`: exact on the three nodes, `Infinity` elsewhere. -/
def collinearHeuristic : String → WithTop ℚ :=
  fun id =>
    if id = "T" then ((0 : ℚ) : WithTop ℚ)
    else if id = "S" then ((10 : ℚ) : WithTop ℚ)
    else if id = "A" then ((1000 : ℚ) : WithTop ℚ)
    else ⊤

theorem collinearHeuristic_isEuclid :
    IsEuclidHeuristic collinearGraph "T" collinearHeuristic := by
  refine ⟨mkNode "T" 0 0, rfl, ?_⟩
  intro id
  by_cases h1 : ("T" : String) = id
  · subst h1
    show ∃ q : ℚ, 0 ≤ q ∧ q * q = _ ∧ collinearHeuristic "T" = (q : WithTop ℚ)
    exact ⟨0, le_refl 0, by norm_num [mkNode], rfl⟩
  · by_cases h2 : ("S" : String) = id
    · subst h2
      show ∃ q : ℚ, 0 ≤ q ∧ q * q = _ ∧ collinearHeuristic "S" = (q : WithTop ℚ)
      exact ⟨10, by norm_num, by norm_num [mkNode], rfl⟩
    · by_cases h3 : ("A" : String) = id
      · subst h3
        show ∃ q : ℚ, 0 ≤ q ∧ q * q = _ ∧ collinearHeuristic "A" = (q : WithTop ℚ)
        exact ⟨1000, by norm_num, by norm_num [mkNode], rfl⟩
      · have hnone : mget collinearGraph.nodes id = none := by
          simp [collinearGraph, mget, h1, h2, h3]
        rw [show (match mget collinearGraph.nodes id with
            | none => collinearHeuristic id = ⊤
            | some n => ∃ q : ℚ, 0 ≤ q ∧
                q * q = (n.x - (mkNode "T" 0 0).x) * (n.x - (mkNode "T" 0 0).x) +
                  (n.y - (mkNode "T" 0 0).y) * (n.y - (mkNode "T" 0 0).y) ∧
                collinearHeuristic id = (q : WithTop ℚ))
          = (collinearHeuristic id = ⊤) by rw [hnone]]
        have h1' : ¬id = "T" := fun hc => h1 hc.symm
        have h2' : ¬id = "S" := fun hc => h2 hc.symm
        have h3' : ¬id = "A" := fun hc => h3 hc.symm
        simp [collinearHeuristic, h1', h2', h3']

/-- C2 counterexample: on `collinearGraph` with the source's own Euclidean
heuristic (exactly characterised by `IsEuclidHeuristic`), `aStar` pops the
destination straight off the heap (f = 10 beats f = 1001 at the detour
node) and reports distance 10, while `dijkstra` finds the true minimum 2
through the detour: the claimed distance equality fails on an explicit
input. -/
theorem claim_C2_counterexample :
    IsEuclidHeuristic collinearGraph "T" collinearHeuristic ∧
    (aStarH collinearGraph "S" "T" false collinearHeuristic).map
        SearchResult.distance = some ((10 : ℚ) : WithTop ℚ) ∧
    (dijkstra collinearGraph "S" "T" false).map SearchResult.distance
      = some ((2 : ℚ) : WithTop ℚ) ∧
    ((10 : ℚ) : WithTop ℚ) ≠ ((2 : ℚ) : WithTop ℚ) := by
  refine ⟨collinearHeuristic_isEuclid, by with_unfolding_all decide,
    by with_unfolding_all decide, by decide⟩

end RouteSync
